import Mathlib

/-!
# Gronsfeld substitution cipher and table route-transposition cipher

Shallow embedding of `alpha_doc/modAlphaCipher.{h,cpp}` and
`route_doc/tableCipher.{h,cpp}`.

* `std::wstring` is `List Char`, `std::vector<int>` is `List Int`,
  `std::map<wchar_t,int>` is an association list with unique keys.
* A thrown `cipher_error` / `table_cipher_error` is the `error` side of `Except`;
  the error kinds stand for the distinct messages of the source.
* `std::iswalpha` and `std::toupper(c, loc)` belong to the C/C++ runtime, not to the
  repository: they are the two fields of `CLocale`, a parameter of every operation.
  The locale `ru_RU.UTF-8` named by `toUpper` is taken to be installed.
* `static_cast<int>(text.length())` and the `unsigned` loop counters are taken to be
  exact: texts are shorter than `2^31` characters.
* Unsigned `size_t` arithmetic is arithmetic modulo `2^64` (`sizeT`).
-/

/-- The character classification and case mapping of the runtime locale
(`std::iswalpha` under the global locale, `std::toupper(c, std::locale("ru_RU.UTF-8"))`). -/
structure CLocale where
  /-- The test `std::iswalpha(c)`. -/
  iswalpha : Char → Bool
  /-- The mapping `std::toupper(c, loc)`. -/
  toupper : Char → Char

/-- A sample of the `ru_RU.UTF-8` locale on the basic Latin and the Russian letters:
the letters are alphabetic, lower-case letters map to their upper-case letter and every
other character is left alone. -/
def ruLocale : CLocale where
  iswalpha := fun c =>
    let n := c.toNat
    (65 ≤ n && n ≤ 90) || (97 ≤ n && n ≤ 122) || (1040 ≤ n && n ≤ 1103) || n == 1025 || n == 1105
  toupper := fun c =>
    let n := c.toNat
    if 97 ≤ n ∧ n ≤ 122 then Char.ofNat (n - 32)
    else if 1072 ≤ n ∧ n ≤ 1103 then Char.ofNat (n - 32)
    else if n = 1105 then Char.ofNat 1025
    else c

/-! ## Table route transposition (`route_doc/tableCipher.cpp`) -/

/-- The kinds of `table_cipher_error` thrown by `TableCipher`, one per message family. -/
inductive table_cipher_error where
  /-- Key is not positive: "Ключ должен быть положительным числом". -/
  | invalidKey
  /-- Key above 1000: "Ключ слишком большой. Максимальное значение: 1000". -/
  | keyTooLarge
  /-- Empty text: "Пустой текст для шифрования!" / "Пустой текст для расшифровки!". -/
  | emptyText
  /-- A character that is neither a letter nor a space: "... недопустимые символы ...". -/
  | invalidTextCharacter
  /-- More columns than characters: "Ключ не может быть больше длины ... текста". -/
  | keyExceedsTextLength
  /-- More than 10000 rows or columns: "Слишком большая таблица для шифрования". -/
  | tableTooLarge
  deriving DecidableEq, Repr

/-- The working grid `std::vector<std::vector<wchar_t>>`. -/
abbrev Table := List (List Char)

/-- The grid `table(numRows, std::vector<wchar_t>(numColumns, L' '))`. -/
def Table.blank (numRows numColumns : Nat) : Table :=
  List.replicate numRows (List.replicate numColumns ' ')

/-- The read access `table[row][col]`. -/
def Table.get (t : Table) (row col : Nat) : Char :=
  (t.getD row []).getD col ' '

/-- The assignment `table[row][col] = v`. -/
def Table.put (t : Table) (row col : Nat) (v : Char) : Table :=
  t.set row ((t.getD row []).set col v)

/-- The class `TableCipher`: its only data member is `numColumns`. -/
structure TableCipher where
  /-- Number of columns of the table (the key). -/
  numColumns : Int
  deriving DecidableEq, Repr

namespace TableCipher

/-- The method `TableCipher::validateKey`. -/
def validateKey (key : Int) : Except table_cipher_error Unit :=
  if key ≤ 0 then .error .invalidKey
  else if key > 1000 then .error .keyTooLarge
  else .ok ()

/-- The constructor `TableCipher::TableCipher(int key)`. -/
def new (key : Int) : Except table_cipher_error TableCipher :=
  match validateKey key with
  | .error e => .error e
  | .ok () => .ok { numColumns := key }

/-- The write loop of `encrypt`: row by row, left to right, while characters remain.
The state is the table and the running `index`. -/
def encryptWrite (text : List Char) (numRows numColumns : Nat) (table : Table) : Table × Nat :=
  (List.range numRows).foldl (fun st row =>
    (List.range numColumns).foldl (fun st col =>
      if st.2 < text.length then (st.1.put row col (text.getD st.2 ' '), st.2 + 1) else st) st)
    (table, 0)

/-- The read loop of `encrypt`: columns from the last to the first, each from top to
bottom, appending the cells that differ from `L' '`. -/
def encryptRead (table : Table) (numRows numColumns : Nat) : List Char :=
  (List.range numColumns).reverse.foldl (fun res col =>
    (List.range numRows).foldl (fun res row =>
      if table.get row col ≠ ' ' then res ++ [table.get row col] else res) res) []

/-- The method `TableCipher::encrypt`. -/
def encrypt (L : CLocale) (c : TableCipher) (text : List Char) :
    Except table_cipher_error (List Char) :=
  if text.isEmpty then .error .emptyText
  else if text.any (fun ch => !L.iswalpha ch && ch != ' ') then .error .invalidTextCharacter
  else if c.numColumns > (text.length : Int) then .error .keyExceedsTextLength
  else
    let textLength : Int := text.length
    let numRows : Int := (textLength + c.numColumns - 1) / c.numColumns
    if numRows > 10000 ∨ c.numColumns > 10000 then .error .tableTooLarge
    else
      let table := Table.blank numRows.toNat c.numColumns.toNat
      let written := encryptWrite text numRows.toNat c.numColumns.toNat table
      .ok (encryptRead written.1 numRows.toNat c.numColumns.toNat)

/-- The write loop of `decrypt`: columns from the last to the first, each from top to
bottom, skipping (`continue`) the cells of the last row at or beyond `lastRowLength`. -/
def decryptWrite (cipher_text : List Char) (numRows numColumns lastRowLength : Nat)
    (table : Table) : Table × Nat :=
  (List.range numColumns).reverse.foldl (fun st col =>
    (List.range numRows).foldl (fun st row =>
      if row = numRows - 1 ∧ col ≥ lastRowLength then st
      else if st.2 < cipher_text.length then
        (st.1.put row col (cipher_text.getD st.2 ' '), st.2 + 1)
      else st) st)
    (table, 0)

/-- The read loop of `decrypt`: row by row, left to right, appending the cells that
differ from `L' '`. -/
def decryptRead (table : Table) (numRows numColumns : Nat) : List Char :=
  (List.range numRows).foldl (fun res row =>
    (List.range numColumns).foldl (fun res col =>
      if table.get row col ≠ ' ' then res ++ [table.get row col] else res) res) []

/-- The method `TableCipher::decrypt`. -/
def decrypt (L : CLocale) (c : TableCipher) (cipher_text : List Char) :
    Except table_cipher_error (List Char) :=
  if cipher_text.isEmpty then .error .emptyText
  else if cipher_text.any (fun ch => !L.iswalpha ch && ch != ' ') then
    .error .invalidTextCharacter
  else if c.numColumns > (cipher_text.length : Int) then .error .keyExceedsTextLength
  else
    let cipherLength : Int := cipher_text.length
    let numRows : Int := (cipherLength + c.numColumns - 1) / c.numColumns
    let lastRowLength : Int :=
      if cipherLength % c.numColumns = 0 then c.numColumns else cipherLength % c.numColumns
    let table := Table.blank numRows.toNat c.numColumns.toNat
    let written :=
      decryptWrite cipher_text numRows.toNat c.numColumns.toNat lastRowLength.toNat table
    .ok (decryptRead written.1 numRows.toNat c.numColumns.toNat)

end TableCipher


/-! ## Gronsfeld cipher (`alpha_doc/modAlphaCipher.cpp`) -/

/-- The kinds of `cipher_error` thrown by `modAlphaCipher`, one per message family. -/
inductive cipher_error where
  /-- Empty key: "Пустой ключ! Ключ не может быть пустой строкой.". -/
  | emptyKey
  /-- Non-letter in the key: "Недопустимый символ в ключе! ...". -/
  | invalidKeyCharacter
  /-- No key letter is in the alphabet: "Ключ не содержит допустимых символов русского алфавита.". -/
  | keyHasNoValidLetters
  /-- Empty text: "Пустой текст для шифрования!" / "Пустой текст для расшифровки!". -/
  | emptyText
  /-- A character that is neither a letter nor a space: "... недопустимые символы ...". -/
  | invalidTextCharacter
  /-- No text letter is in the alphabet: "... не содержит символов русского алфавита ...". -/
  | textHasNoValidLetters
  /-- An index outside the alphabet: "... некорректный индекс символа." /
  "Индекс символа выходит за границы алфавита.". -/
  | indexOutOfRange
  deriving DecidableEq, Repr

/-- The type `std::map<wchar_t,int>`: an association list holding each key once. -/
abbrev AlphaMap := List (Char × Int)

/-- The assignment `m[k] = v`: overwrite the entry of `k`, or add one. -/
def AlphaMap.assign : AlphaMap → Char → Int → AlphaMap
  | [], k, v => [(k, v)]
  | (k0, v0) :: rest, k, v =>
    if k0 = k then (k, v) :: rest else (k0, v0) :: AlphaMap.assign rest k v

/-- The lookup `m.find(k)`: `none` stands for `m.end()`. -/
def AlphaMap.find : AlphaMap → Char → Option Int
  | [], _ => none
  | (k0, v0) :: rest, k => if k0 = k then some v0 else AlphaMap.find rest k

/-- Conversion of an `int` expression to `size_t` (64-bit unsigned arithmetic). -/
def sizeT (x : Int) : Int := x % 2 ^ 64

/-- The class `modAlphaCipher`: the members `alphaNum` and `key`
(`numAlpha` is the same constant in every object). -/
structure modAlphaCipher where
  /-- The map "character - number". -/
  alphaNum : AlphaMap
  /-- The key in numeric form. -/
  key : List Int
  deriving DecidableEq, Repr

namespace modAlphaCipher

/-- The member `numAlpha = L"АБВГДЕЁЖЗИЙКЛМНОПРСТУФХЦЧШЩЪЫЬЭЮЯ"`. -/
def numAlpha : List Char :=
  ['А', 'Б', 'В', 'Г', 'Д', 'Е', 'Ё', 'Ж', 'З', 'И', 'Й', 'К', 'Л', 'М', 'Н', 'О', 'П',
   'Р', 'С', 'Т', 'У', 'Ф', 'Х', 'Ц', 'Ч', 'Ш', 'Щ', 'Ъ', 'Ы', 'Ь', 'Э', 'Ю', 'Я']

/-- The method `toUpper`. -/
def toUpper (L : CLocale) (s : List Char) : List Char :=
  s.map L.toupper

/-- The overload `convert(const std::wstring&)`: the numbers of the characters found in
`alphaNum`, the others being skipped. -/
def convert (alphaNum : AlphaMap) (s : List Char) : List Int :=
  s.filterMap alphaNum.find

/-- The overload `convert(const std::vector<int>&)`: the letters of the indices, throwing
at the first index outside `numAlpha`. -/
def convertVec : List Int → Except cipher_error (List Char)
  | [] => .ok []
  | i :: v =>
    if i < 0 ∨ i ≥ (numAlpha.length : Int) then .error .indexOutOfRange
    else
      match convertVec v with
      | .error e => .error e
      | .ok r => .ok (numAlpha.getD i.toNat ' ' :: r)

/-- The initialisation loop of the constructor, `alphaNum[numAlpha[i]] = i`, started
from the empty map. -/
def initAlphaNum : AlphaMap :=
  (List.range numAlpha.length).foldl (fun m i => m.assign (numAlpha.getD i ' ') (i : Int)) []

/-- The constructor `modAlphaCipher::modAlphaCipher(const std::wstring& skey)`. -/
def new (L : CLocale) (skey : List Char) : Except cipher_error modAlphaCipher :=
  if skey.isEmpty then .error .emptyKey
  else if skey.any (fun c => !L.iswalpha c) then .error .invalidKeyCharacter
  else
    let alphaNum := initAlphaNum
    let key := convert alphaNum (toUpper L skey)
    if key.isEmpty then .error .keyHasNoValidLetters
    else .ok { alphaNum := alphaNum, key := key }

/-- The enciphering loop of `encrypt` from position `i` on: `work[i]` becomes
`(work[i] + key[i % key.size()]) % alphaNum.size()`, and the range check follows. -/
def encryptLoop (c : modAlphaCipher) : Nat → List Int → Except cipher_error (List Int)
  | _, [] => .ok []
  | i, w :: rest =>
    let v := sizeT (w + c.key.getD (i % c.key.length) 0) % (c.alphaNum.length : Int)
    if v < 0 ∨ v ≥ (c.alphaNum.length : Int) then .error .indexOutOfRange
    else
      match encryptLoop c (i + 1) rest with
      | .error e => .error e
      | .ok r => .ok (v :: r)

/-- The method `modAlphaCipher::encrypt`. -/
def encrypt (L : CLocale) (c : modAlphaCipher) (open_text : List Char) :
    Except cipher_error (List Char) :=
  if open_text.isEmpty then .error .emptyText
  else if open_text.any (fun ch => !L.iswalpha ch && ch != ' ') then
    .error .invalidTextCharacter
  else
    let text := toUpper L open_text
    let work := convert c.alphaNum text
    if work.isEmpty then .error .textHasNoValidLetters
    else
      match encryptLoop c 0 work with
      | .error e => .error e
      | .ok work => convertVec work

/-- The deciphering loop of `decrypt` from position `i` on: `work[i]` becomes
`(work[i] + alphaNum.size() - key[i % key.size()]) % alphaNum.size()`, and the range
check follows. -/
def decryptLoop (c : modAlphaCipher) : Nat → List Int → Except cipher_error (List Int)
  | _, [] => .ok []
  | i, w :: rest =>
    let v := sizeT (w + (c.alphaNum.length : Int) - c.key.getD (i % c.key.length) 0)
      % (c.alphaNum.length : Int)
    if v < 0 ∨ v ≥ (c.alphaNum.length : Int) then .error .indexOutOfRange
    else
      match decryptLoop c (i + 1) rest with
      | .error e => .error e
      | .ok r => .ok (v :: r)

/-- The method `modAlphaCipher::decrypt`. -/
def decrypt (L : CLocale) (c : modAlphaCipher) (cipher_text : List Char) :
    Except cipher_error (List Char) :=
  if cipher_text.isEmpty then .error .emptyText
  else if cipher_text.any (fun ch => !L.iswalpha ch && ch != ' ') then
    .error .invalidTextCharacter
  else
    let text := toUpper L cipher_text
    let work := convert c.alphaNum text
    if work.isEmpty then .error .textHasNoValidLetters
    else
      match decryptLoop c 0 work with
      | .error e => .error e
      | .ok work => convertVec work

/-- The alphabet index of a letter: its position in `numAlpha`. -/
def alphaIndex (ch : Char) : Int := (numAlpha.indexOf ch : Nat)

/-- A text with every character outside the alphabet `numAlpha` removed. -/
def stripNonAlphabet (s : List Char) : List Char :=
  s.filter (fun ch => decide (ch ∈ numAlpha))

/-- The sequence of alphabet indices of a text: upper-case it, drop the characters
outside the alphabet, take the index of each remaining letter. -/
def indexSequence (L : CLocale) (s : List Char) : List Int :=
  (stripNonAlphabet (s.map L.toupper)).map alphaIndex

/-- The letter of an index, for the indices below the alphabet length. -/
def letterAt (i : Int) : Char := numAlpha.getD i.toNat ' '

/-- The enciphering rule in words: the letters with index
`(p[i] + k[i mod m]) mod modulus`, for the index sequence `p` of the text and the numeric
key `k` of length `m`. -/
def encryptRule (modulus : Int) (p k : List Int) : List Char :=
  (List.range p.length).map fun i =>
    letterAt ((p.getD i 0 + k.getD (i % k.length) 0) % modulus)

/-- The deciphering rule in words: the letters with index
`(q[i] + modulus - k[i mod m]) mod modulus`, for the index sequence `q` of the cipher text
and the numeric key `k` of length `m`. -/
def decryptRule (modulus : Int) (q k : List Int) : List Char :=
  (List.range q.length).map fun i =>
    letterAt ((q.getD i 0 + modulus - k.getD (i % k.length) 0) % modulus)

end modAlphaCipher

/-- Equality of results is decidable when equality of errors and of values is. -/
instance instDecidableEqExcept {ε α : Type} [DecidableEq ε] [DecidableEq α] :
    DecidableEq (Except ε α)
  | .ok a, .ok b =>
    if h : a = b then isTrue (by rw [h]) else isFalse (by intro h2; cases h2; exact h rfl)
  | .error a, .error b =>
    if h : a = b then isTrue (by rw [h]) else isFalse (by intro h2; cases h2; exact h rfl)
  | .ok _, .error _ => isFalse (by intro h; cases h)
  | .error _, .ok _ => isFalse (by intro h; cases h)

/-! ## Sample texts -/

/-- The text of the documented example of `TableCipher` (test 1 of `demonstrateCipher`). -/
def textPrivetMir : List Char := "ПРИВЕТМИР".toList

/-- The result that the documentation of `TableCipher::encrypt` gives for its example. -/
def textDocCipher : List Char := "ИТРЕРВИПМ".toList

/-- The text that `TableCipher(3).encrypt` returns for `textPrivetMir`. -/
def textRouteCipher : List Char := "ИТРРЕИПВМ".toList

/-- The text that `TableCipher(3).decrypt` returns for `textDocCipher`. -/
def textDocPlain : List Char := "ИЕИПРТМВР".toList

/-- The key of the first test of `testCorrectCases`. -/
def keyDozhdi : List Char := "ДОЖДИ".toList

/-- The text of the first test of `testCorrectCases`. -/
def textTimp : List Char := "ТИМПЛБДВА".toList

/-- The cipher object that the constructor builds from `keyDozhdi`. -/
def cipherDozhdi : modAlphaCipher :=
  { alphaNum := modAlphaCipher.initAlphaNum, key := [4, 15, 7, 4, 9] }

/-- The cipher object that the constructor builds from the key "Б". -/
def cipherB : modAlphaCipher :=
  { alphaNum := modAlphaCipher.initAlphaNum, key := [1] }

/-- A text with lower-case letters and a space. -/
def textMixed : List Char := "Привет мир".toList

/-- A text of 5 letters, which fills 2 rows of 3 columns but for one cell. -/
def textAbvgd : List Char := "АБВГД".toList

/-- The cipher object that the constructor builds from the key "Я", the last letter of
the alphabet. -/
def cipherYa : modAlphaCipher :=
  { alphaNum := modAlphaCipher.initAlphaNum, key := [32] }

/-- The cipher object that the constructor builds from the key "ДОЖДИДОЖДИ". -/
def cipherDozhdiTwice : modAlphaCipher :=
  { alphaNum := modAlphaCipher.initAlphaNum, key := [4, 15, 7, 4, 9, 4, 15, 7, 4, 9] }

/-! ## Auxiliary notions for the proofs about the table cipher -/

/-- The read access `table[row][col]`, defined only inside the table. -/
def Table.get? (t : Table) (row col : Nat) : Option Char :=
  (t[row]?).bind fun r => r[col]?

/-- The assignment `table[row][col] = v`, defined only inside the table. -/
def Table.put? (t : Table) (row col : Nat) (v : Char) : Option Table :=
  (t[row]?).bind fun r => if col < r.length then some (t.set row (r.set col v)) else none

/-- A table of `numRows` rows, each of `numColumns` cells. -/
def Table.Shape (t : Table) (numRows numColumns : Nat) : Prop :=
  t.length = numRows ∧ ∀ row ∈ t, row.length = numColumns

namespace TableCipher

/-- The cells `(row, col)` of the grid in the order of the loops
`for row < numRows, for col < numColumns`. -/
def rowMajor (numRows numColumns : Nat) : List (Nat × Nat) :=
  (List.range numRows).flatMap fun row => (List.range numColumns).map fun col => (row, col)

/-- The cells `(row, col)` of the grid in the order of the loops
`for col = numColumns - 1 downto 0, for row < numRows`. -/
def colMajor (numRows numColumns : Nat) : List (Nat × Nat) :=
  (List.range numColumns).reverse.flatMap fun col => (List.range numRows).map fun row => (row, col)

/-- One pass of a write loop over a sequence of cells: each cell takes the next character
while characters remain. -/
def writeCells (text : List Char) (cells : List (Nat × Nat)) (st : Table × Nat) : Table × Nat :=
  cells.foldl (fun st p =>
    if st.2 < text.length then (st.1.put p.1 p.2 (text.getD st.2 ' '), st.2 + 1) else st) st

/-- The position of the first occurrence of a cell in a sequence of cells (the length
of the sequence when there is none). -/
def cellIndex : List (Nat × Nat) → Nat × Nat → Nat
  | [], _ => 0
  | q :: rest, p => if q = p then 0 else cellIndex rest p + 1

/-- The cells visited and not skipped by the write loop of `decrypt`, in its order. -/
def decryptCells (numRows numColumns lastRowLength : Nat) : List (Nat × Nat) :=
  (colMajor numRows numColumns).filter fun p =>
    !decide (p.1 = numRows - 1 ∧ p.2 ≥ lastRowLength)

/-- One pass of a read loop over a sequence of cells: the cells that differ from `L' '`. -/
def readCells (t : Table) (cells : List (Nat × Nat)) : List Char :=
  (cells.map fun p => t.get p.1 p.2).filter fun ch => decide (ch ≠ ' ')

/-- The character that the row-major filling of a grid of `numColumns` columns puts in a
cell: the character of the text at `row * numColumns + col`, or the blank beyond the text. -/
def gridCell (text : List Char) (numColumns : Nat) (p : Nat × Nat) : Char :=
  text.getD (p.1 * numColumns + p.2) ' '

/-- The number of rows computed by `encrypt` and `decrypt`. -/
def rowCount (textLength numColumns : Nat) : Nat :=
  (textLength + numColumns - 1) / numColumns

/-- The length of the last row computed by `decrypt`. -/
def lastRow (textLength numColumns : Nat) : Nat :=
  if textLength % numColumns = 0 then numColumns else textLength % numColumns

/-- The number of rows in the words of the specification, `ceil(textLength / numColumns)`:
the ceiling of the quotient of rational numbers. -/
def ceilRows (textLength : Nat) (numColumns : Int) : Int :=
  ⌈((textLength : ℚ) / (numColumns : ℚ))⌉

/-- A text of 10001 letters: one more than 10000 rows of one column hold. -/
def textOversized : List Char := List.replicate 10001 'А'

/-- The positions `col, col + c, col + 2c, ...` below `n`, in increasing order. -/
def columnPositions (n c col : Nat) : List Nat :=
  ((List.range n).map fun j => col + j * c).filter fun i => decide (i < n)

/-- The route of `encrypt` in words: for `col = c - 1` down to `0`, the characters of the
text at the positions `col, col + c, col + 2c, ...`, the spaces being left out. -/
def routeText (text : List Char) (c : Nat) : List Char :=
  ((List.range c).reverse.flatMap fun col =>
    (columnPositions text.length c col).map fun i => text.getD i ' ').filter
      fun ch => decide (ch ≠ ' ')

/-- The write loop of `encrypt` where an access outside the table, or outside the text, is
a failure (`none`) instead of undefined behaviour. -/
def encryptWriteChecked (text : List Char) (numRows numColumns : Nat) (table : Table) :
    Option (Table × Nat) :=
  (List.range numRows).foldlM (fun st row =>
    (List.range numColumns).foldlM (fun st col =>
      if st.2 < text.length then
        (text[st.2]?).bind fun ch =>
          (st.1.put? row col ch).bind fun t => some (t, st.2 + 1)
      else some st) st)
    (table, 0)

/-- The read loop of `encrypt` where an access outside the table is a failure. -/
def encryptReadChecked (table : Table) (numRows numColumns : Nat) : Option (List Char) :=
  (List.range numColumns).reverse.foldlM (fun res col =>
    (List.range numRows).foldlM (fun res row =>
      (table.get? row col).bind fun ch =>
        some (if ch ≠ ' ' then res ++ [ch] else res)) res) []

/-- The write loop of `decrypt` where an access outside the table, or outside the text, is
a failure. -/
def decryptWriteChecked (cipher_text : List Char) (numRows numColumns lastRowLength : Nat)
    (table : Table) : Option (Table × Nat) :=
  (List.range numColumns).reverse.foldlM (fun st col =>
    (List.range numRows).foldlM (fun st row =>
      if row = numRows - 1 ∧ col ≥ lastRowLength then some st
      else if st.2 < cipher_text.length then
        (cipher_text[st.2]?).bind fun ch =>
          (st.1.put? row col ch).bind fun t => some (t, st.2 + 1)
      else some st) st)
    (table, 0)

/-- The read loop of `decrypt` where an access outside the table is a failure. -/
def decryptReadChecked (table : Table) (numRows numColumns : Nat) : Option (List Char) :=
  (List.range numRows).foldlM (fun res row =>
    (List.range numColumns).foldlM (fun res col =>
      (table.get? row col).bind fun ch =>
        some (if ch ≠ ' ' then res ++ [ch] else res)) res) []

end TableCipher

/-! ## Lemmas on tables -/

theorem Table.shape_blank (R C : Nat) : (Table.blank R C).Shape R C := by
  constructor
  · simp [Table.blank]
  · intro row h
    rw [Table.blank, List.mem_replicate] at h
    simp [h.2]

theorem Table.get_blank (R C r c : Nat) : (Table.blank R C).get r c = ' ' := by
  unfold Table.get Table.blank
  rw [List.getD_eq_getElem?_getD, List.getD_eq_getElem?_getD]
  by_cases hr : r < R
  · rw [List.getElem?_replicate, if_pos hr]
    simp only [Option.getD_some]
    by_cases hc : c < C
    · rw [List.getElem?_replicate, if_pos hc]; rfl
    · rw [List.getElem?_replicate, if_neg hc]; rfl
  · rw [List.getElem?_replicate, if_neg hr]
    simp

theorem Table.shape_put {t : Table} {R C : Nat} (h : t.Shape R C) (r c : Nat) (v : Char) :
    (t.put r c v).Shape R C := by
  obtain ⟨h1, h2⟩ := h
  constructor
  · simp [Table.put, h1]
  · intro row hrow
    unfold Table.put at hrow
    by_cases hr : r < t.length
    · rcases List.mem_or_eq_of_mem_set hrow with hm | he
      · exact h2 row hm
      · subst he
        rw [List.length_set, List.getD_eq_getElem _ _ hr]
        exact h2 _ (List.getElem_mem _)
    · rw [List.set_eq_of_length_le (by omega)] at hrow
      exact h2 row hrow

theorem Table.get_put {t : Table} {R C : Nat} (h : t.Shape R C) {r c : Nat} (hr : r < R)
    (hc : c < C) (v : Char) (r2 c2 : Nat) :
    (t.put r c v).get r2 c2 = if r2 = r ∧ c2 = c then v else t.get r2 c2 := by
  obtain ⟨h1, h2⟩ := h
  have hrl : r < t.length := by omega
  have hrow : (t.getD r []).length = C := by
    rw [List.getD_eq_getElem _ _ hrl]
    exact h2 _ (List.getElem_mem _)
  unfold Table.get Table.put
  simp only [List.getD_eq_getElem?_getD, List.getElem?_set]
  by_cases e1 : r = r2
  · subst e1
    simp only [hrl, if_true, true_and]
    by_cases e2 : c = c2
    · subst e2
      have : c < (t[r]?.getD []).length := by
        rw [← List.getD_eq_getElem?_getD]; omega
      simp [this]
    · have e3 : ¬ c2 = c := fun h => e2 h.symm
      simp [e2, e3]
  · have e3 : ¬ r2 = r := fun h => e1 h.symm
    simp [e1, e3]

/-! ## The loops as passes over sequences of cells -/

namespace TableCipher

theorem foldl_flatMap_cells {σ : Type} (f : σ → Nat × Nat → σ) (mk : Nat → Nat → Nat × Nat)
    (outer inner : List Nat) (init : σ) :
    outer.foldl (fun st a => inner.foldl (fun st b => f st (mk a b)) st) init
      = (outer.flatMap fun a => inner.map fun b => mk a b).foldl f init := by
  induction outer generalizing init with
  | nil => rfl
  | cons a rest ih =>
    simp only [List.foldl_cons, List.flatMap_cons, List.foldl_append, List.foldl_map]
    exact ih _

theorem foldl_read_eq (t : Table) (cells : List (Nat × Nat)) (acc : List Char) :
    cells.foldl (fun res p => if t.get p.1 p.2 ≠ ' ' then res ++ [t.get p.1 p.2] else res) acc
      = acc ++ readCells t cells := by
  induction cells generalizing acc with
  | nil => simp [readCells]
  | cons p rest ih =>
    rw [List.foldl_cons, ih]
    by_cases h : t.get p.1 p.2 = ' '
    · simp [readCells, h]
    · simp [readCells, h]

theorem encryptWrite_eq (text : List Char) (R C : Nat) (t : Table) :
    encryptWrite text R C t = writeCells text (rowMajor R C) (t, 0) := by
  unfold encryptWrite writeCells rowMajor
  exact foldl_flatMap_cells
    (fun st p => if st.2 < text.length then (st.1.put p.1 p.2 (text.getD st.2 ' '), st.2 + 1)
      else st)
    (fun r c => (r, c)) (List.range R) (List.range C) (t, 0)

theorem encryptRead_eq (t : Table) (R C : Nat) :
    encryptRead t R C = readCells t (colMajor R C) := by
  unfold encryptRead colMajor
  rw [foldl_flatMap_cells
    (fun res p => if t.get p.1 p.2 ≠ ' ' then res ++ [t.get p.1 p.2] else res)
    (fun c r => (r, c)), foldl_read_eq, List.nil_append]

theorem decryptRead_eq (t : Table) (R C : Nat) :
    decryptRead t R C = readCells t (rowMajor R C) := by
  unfold decryptRead rowMajor
  rw [foldl_flatMap_cells
    (fun res p => if t.get p.1 p.2 ≠ ' ' then res ++ [t.get p.1 p.2] else res)
    (fun r c => (r, c)), foldl_read_eq, List.nil_append]

theorem foldl_skip_eq_filter {σ α : Type} (f : σ → α → σ) (skip : α → Bool) (l : List α)
    (init : σ) :
    l.foldl (fun st a => if skip a = true then st else f st a) init
      = (l.filter fun a => !skip a).foldl f init := by
  induction l generalizing init with
  | nil => rfl
  | cons a rest ih =>
    by_cases h : skip a = true
    · simp [List.filter_cons, h, ih]
    · simp [List.filter_cons, h, ih]

theorem decryptWrite_eq (text : List Char) (R C last : Nat) (t : Table) :
    decryptWrite text R C last t
      = writeCells text
          ((colMajor R C).filter fun p => !decide (p.1 = R - 1 ∧ p.2 ≥ last)) (t, 0) := by
  unfold decryptWrite writeCells colMajor
  have h := foldl_flatMap_cells
    (fun (st : Table × Nat) p => if (decide (p.1 = R - 1 ∧ p.2 ≥ last)) = true then st
      else if st.2 < text.length then (st.1.put p.1 p.2 (text.getD st.2 ' '), st.2 + 1)
      else st)
    (fun c r => (r, c)) (List.range C).reverse (List.range R) (t, 0)
  rw [foldl_skip_eq_filter] at h
  simp only [decide_eq_true_eq] at h
  exact h

end TableCipher

/-! ## The table after a write pass -/

namespace TableCipher

theorem getD_blank_of_le (text : List Char) {k : Nat} (h : text.length ≤ k) :
    text.getD k ' ' = ' ' := by
  rw [List.getD_eq_getElem?_getD, List.getElem?_eq_none h]
  rfl

theorem writeCells_spec (text : List Char) (R C : Nat) :
    ∀ (cells : List (Nat × Nat)) (t : Table) (i : Nat),
      t.Shape R C → cells.Nodup → (∀ p ∈ cells, p.1 < R ∧ p.2 < C) →
      (∀ p ∈ cells, t.get p.1 p.2 = ' ') →
      (writeCells text cells (t, i)).1.Shape R C ∧
      ∀ p : Nat × Nat, (writeCells text cells (t, i)).1.get p.1 p.2 =
        if p ∈ cells then text.getD (i + cellIndex cells p) ' ' else t.get p.1 p.2 := by
  intro cells
  induction cells with
  | nil =>
    intro t i hs _ _ _
    exact ⟨hs, fun p => by simp [writeCells]⟩
  | cons q rest ih =>
    intro t i hs hnd hb hblank
    have hq : q ∉ rest := (List.nodup_cons.mp hnd).1
    have hnd2 : rest.Nodup := (List.nodup_cons.mp hnd).2
    have hb2 : ∀ p ∈ rest, p.1 < R ∧ p.2 < C := fun p hp => hb p (List.mem_cons_of_mem _ hp)
    have hqb := hb q (List.mem_cons_self _ _)
    by_cases hi : i < text.length
    · have hstep : writeCells text (q :: rest) (t, i)
          = writeCells text rest (t.put q.1 q.2 (text.getD i ' '), i + 1) := by
        simp [writeCells, hi]
      have hs2 := Table.shape_put hs q.1 q.2 (text.getD i ' ')
      have hblank2 : ∀ p ∈ rest, (t.put q.1 q.2 (text.getD i ' ')).get p.1 p.2 = ' ' := by
        intro p hp
        rw [Table.get_put hs hqb.1 hqb.2]
        have hne : ¬ (p.1 = q.1 ∧ p.2 = q.2) := by
          intro h
          exact hq (by rw [← Prod.ext h.1 h.2]; exact hp)
        rw [if_neg hne]
        exact hblank p (List.mem_cons_of_mem _ hp)
      obtain ⟨r1, r2⟩ := ih _ (i + 1) hs2 hnd2 hb2 hblank2
      rw [hstep]
      refine ⟨r1, fun p => ?_⟩
      rw [r2 p]
      by_cases hpq : p = q
      · subst hpq
        simp [hq, Table.get_put hs hqb.1 hqb.2, cellIndex]
      · have hqp : ¬ q = p := fun h => hpq h.symm
        have hne : ¬ (p.1 = q.1 ∧ p.2 = q.2) := fun h => hpq (Prod.ext h.1 h.2)
        by_cases hpr : p ∈ rest
        · simp only [hpr, if_true, List.mem_cons, or_true]
          rw [cellIndex, if_neg hqp]
          congr 1
          omega
        · simp [hpr, hpq, Table.get_put hs hqb.1 hqb.2, hne]
    · have hstep : writeCells text (q :: rest) (t, i) = writeCells text rest (t, i) := by
        simp [writeCells, hi]
      have hblank2 : ∀ p ∈ rest, t.get p.1 p.2 = ' ' :=
        fun p hp => hblank p (List.mem_cons_of_mem _ hp)
      obtain ⟨r1, r2⟩ := ih t i hs hnd2 hb2 hblank2
      rw [hstep]
      refine ⟨r1, fun p => ?_⟩
      rw [r2 p]
      by_cases hpq : p = q
      · subst hpq
        simp only [hq, if_false, List.mem_cons, true_or, if_true]
        rw [getD_blank_of_le text (by omega)]
        exact hblank p (List.mem_cons_self _ _)
      · by_cases hpr : p ∈ rest
        · simp only [hpr, if_true, List.mem_cons, or_true]
          rw [getD_blank_of_le text (by omega), getD_blank_of_le text (by omega)]
        · simp [hpr, hpq]

theorem cellIndex_lt : ∀ (l : List (Nat × Nat)) {a : Nat × Nat}, a ∈ l →
    cellIndex l a < l.length
  | [], _, h => by simp at h
  | q :: rest, a, h => by
    by_cases hq : q = a
    · simp [cellIndex, hq]
    · have hr : a ∈ rest := by
        rcases List.mem_cons.mp h with h1 | h1
        · exact absurd h1.symm hq
        · exact h1
      have := cellIndex_lt rest hr
      simp only [cellIndex, if_neg hq, List.length_cons]
      omega

theorem getElem?_cellIndex : ∀ (l : List (Nat × Nat)) {a : Nat × Nat}, a ∈ l →
    l[cellIndex l a]? = some a
  | [], _, h => by simp at h
  | q :: rest, a, h => by
    by_cases hq : q = a
    · simp [cellIndex, hq]
    · have hr : a ∈ rest := by
        rcases List.mem_cons.mp h with h1 | h1
        · exact absurd h1.symm hq
        · exact h1
      simp only [cellIndex, if_neg hq, List.getElem?_cons_succ]
      exact getElem?_cellIndex rest hr

theorem cellIndex_of_map_eq_range (f : Nat × Nat → Nat) (l : List (Nat × Nat))
    (h : l.map f = List.range l.length) {a : Nat × Nat} (ha : a ∈ l) :
    cellIndex l a = f a := by
  have hlt : cellIndex l a < l.length := cellIndex_lt l ha
  have h1 : (l.map f)[cellIndex l a]? = some (f a) := by
    rw [List.getElem?_map, getElem?_cellIndex l ha]
    rfl
  rw [h, List.getElem?_range hlt] at h1
  exact (Option.some.inj h1)

theorem getD_map_cellIndex {β : Type} (g : Nat × Nat → β) (d : β) (l : List (Nat × Nat))
    {a : Nat × Nat} (ha : a ∈ l) : (l.map g).getD (cellIndex l a) d = g a := by
  rw [List.getD_eq_getElem?_getD, List.getElem?_map, getElem?_cellIndex l ha]
  rfl

end TableCipher

/-! ## The two traversal orders -/

namespace TableCipher

theorem rowMajor_succ (R C : Nat) :
    rowMajor (R + 1) C = rowMajor R C ++ (List.range C).map fun col => (R, col) := by
  simp [rowMajor, List.range_succ, List.flatMap_append]

theorem map_index_rowMajor (R C : Nat) :
    (rowMajor R C).map (fun p => p.1 * C + p.2) = List.range (R * C) := by
  induction R with
  | zero => simp [rowMajor]
  | succ R ih =>
    rw [rowMajor_succ, List.map_append, ih, Nat.succ_mul, List.range_add, List.map_map]
    rfl

theorem length_rowMajor (R C : Nat) : (rowMajor R C).length = R * C := by
  have h := congrArg List.length (map_index_rowMajor R C)
  simpa using h

theorem mem_rowMajor {R C : Nat} {p : Nat × Nat} :
    p ∈ rowMajor R C ↔ p.1 < R ∧ p.2 < C := by
  obtain ⟨r, c⟩ := p
  simp only [rowMajor, List.mem_flatMap, List.mem_map, List.mem_range, Prod.mk.injEq]
  constructor
  · rintro ⟨a, ha, b, hb, rfl, rfl⟩
    exact ⟨ha, hb⟩
  · rintro ⟨h1, h2⟩
    exact ⟨r, h1, c, h2, rfl, rfl⟩

theorem mem_colMajor {R C : Nat} {p : Nat × Nat} :
    p ∈ colMajor R C ↔ p.1 < R ∧ p.2 < C := by
  obtain ⟨r, c⟩ := p
  simp only [colMajor, List.mem_flatMap, List.mem_map, List.mem_range, List.mem_reverse,
    Prod.mk.injEq]
  constructor
  · rintro ⟨a, ha, b, hb, rfl, rfl⟩
    exact ⟨hb, ha⟩
  · rintro ⟨h1, h2⟩
    exact ⟨c, h2, r, h1, rfl, rfl⟩

theorem nodup_rowMajor (R C : Nat) : (rowMajor R C).Nodup := by
  apply List.Nodup.of_map (fun p : Nat × Nat => p.1 * C + p.2)
  rw [map_index_rowMajor]
  exact List.nodup_range _

theorem colMajor_perm_swap (R C : Nat) :
    List.Perm (colMajor R C) ((rowMajor C R).map Prod.swap) := by
  have h : (rowMajor C R).map Prod.swap
      = (List.range C).flatMap fun col => (List.range R).map fun row => (row, col) := by
    simp [rowMajor, List.map_flatMap, Function.comp_def]
  rw [h]
  exact List.Perm.flatMap_right _ (List.reverse_perm _)

theorem nodup_colMajor (R C : Nat) : (colMajor R C).Nodup := by
  rw [(colMajor_perm_swap R C).nodup_iff]
  exact (nodup_rowMajor C R).map Prod.swap_injective

theorem colMajor_perm_rowMajor (R C : Nat) : List.Perm (colMajor R C) (rowMajor R C) := by
  rw [List.perm_ext_iff_of_nodup (nodup_colMajor R C) (nodup_rowMajor R C)]
  intro p
  rw [mem_colMajor, mem_rowMajor]

theorem filter_lt_range {n m : Nat} (h : n ≤ m) :
    (List.range m).filter (fun k => decide (k < n)) = List.range n := by
  obtain ⟨d, rfl⟩ := Nat.exists_eq_add_of_le h
  rw [List.range_add, List.filter_append]
  have h1 : (List.range n).filter (fun k => decide (k < n)) = List.range n := by
    rw [List.filter_eq_self]
    intro a ha
    simpa using List.mem_range.mp ha
  have h2 : ((List.range d).map fun x => n + x).filter (fun k => decide (k < n)) = [] := by
    rw [List.filter_eq_nil_iff]
    intro a ha
    obtain ⟨b, _, rfl⟩ := List.mem_map.mp ha
    simp
  rw [h1, h2, List.append_nil]

/-- The cells that hold a character of a text of length `n`, in column order, are `n`. -/
theorem length_filter_colMajor {R C n : Nat} (h : n ≤ R * C) :
    ((colMajor R C).filter fun p => decide (p.1 * C + p.2 < n)).length = n := by
  rw [((colMajor_perm_rowMajor R C).filter _).length_eq]
  have h1 : (((rowMajor R C).filter fun p => decide (p.1 * C + p.2 < n)).map
      fun p => p.1 * C + p.2) = List.range n := by
    rw [← filter_lt_range h, ← map_index_rowMajor, List.filter_map]
    rfl
  have h2 := congrArg List.length h1
  simpa using h2

end TableCipher

/-! ## Arithmetic of the grid dimensions -/

namespace TableCipher

theorem rowCount_cases {n C : Nat} (hC : 0 < C) :
    (n % C = 0 ∧ rowCount n C = n / C ∧ lastRow n C = C) ∨
    (0 < n % C ∧ rowCount n C = n / C + 1 ∧ lastRow n C = n % C) := by
  have hdm : C * (n / C) + n % C = n := Nat.div_add_mod n C
  have hm : n % C < C := Nat.mod_lt n hC
  have hcomm : C * (n / C) = n / C * C := Nat.mul_comm _ _
  by_cases h0 : n % C = 0
  · left
    refine ⟨h0, ?_, by simp [lastRow, h0]⟩
    unfold rowCount
    apply Nat.div_eq_of_lt_le
    · omega
    · rw [Nat.succ_mul]; omega
  · right
    refine ⟨by omega, ?_, by simp [lastRow, h0]⟩
    unfold rowCount
    apply Nat.div_eq_of_lt_le
    · rw [Nat.add_mul]; omega
    · rw [Nat.succ_mul, Nat.add_mul]; omega

theorem le_rowCount_mul {n C : Nat} (hC : 0 < C) : n ≤ rowCount n C * C := by
  have hdm : C * (n / C) + n % C = n := Nat.div_add_mod n C
  have hm : n % C < C := Nat.mod_lt n hC
  have hcomm : C * (n / C) = n / C * C := Nat.mul_comm _ _
  rcases rowCount_cases (n := n) hC with ⟨h0, hR, _⟩ | ⟨h0, hR, _⟩
  · rw [hR]; omega
  · rw [hR, Nat.add_mul]; omega

/-- The cells skipped by the write loop of `decrypt` are the cells beyond the text. -/
theorem inText_iff_not_skipped {n C r c : Nat} (hC : 0 < C)
    (hr : r < rowCount n C) (hc : c < C) :
    r * C + c < n ↔ ¬ (r = rowCount n C - 1 ∧ c ≥ lastRow n C) := by
  have hdm : C * (n / C) + n % C = n := Nat.div_add_mod n C
  have hm : n % C < C := Nat.mod_lt n hC
  have hcomm : C * (n / C) = n / C * C := Nat.mul_comm _ _
  rcases rowCount_cases (n := n) hC with ⟨h0, hR, hL⟩ | ⟨h0, hR, hL⟩
  · rw [hR] at hr ⊢
    rw [hL]
    have h1 : (r + 1) * C ≤ n / C * C := Nat.mul_le_mul_right C hr
    rw [Nat.add_mul] at h1
    constructor
    · intro _ h; omega
    · intro _; omega
  · rw [hR] at hr ⊢
    rw [hL]
    by_cases hrq : r < n / C
    · have h1 : (r + 1) * C ≤ n / C * C := Nat.mul_le_mul_right C hrq
      rw [Nat.add_mul] at h1
      constructor
      · intro _ h; omega
      · intro _; omega
    · have hrq2 : r = n / C := by omega
      subst hrq2
      constructor
      · intro h1 h2; omega
      · intro h
        have : ¬ c ≥ n % C := fun h2 => h ⟨(Nat.add_sub_cancel (n / C) 1).symm, h2⟩
        omega

theorem int_rowCount (n C : Nat) (hC : 0 < C) :
    ((n : Int) + (C : Int) - 1) / (C : Int) = ((rowCount n C : Nat) : Int) := by
  have h : (n : Int) + (C : Int) - 1 = ((n + C - 1 : Nat) : Int) := by omega
  rw [h, rowCount, Int.natCast_div]

theorem int_lastRow (n C : Nat) :
    (if (n : Int) % (C : Int) = 0 then (C : Int) else (n : Int) % (C : Int))
      = ((lastRow n C : Nat) : Int) := by
  unfold lastRow
  by_cases h : n % C = 0
  · have h2 : (n : Int) % (C : Int) = 0 := by exact_mod_cast h
    rw [if_pos h, if_pos h2]
  · have h2 : ¬ (n : Int) % (C : Int) = 0 := by
      intro h3; apply h; exact_mod_cast h3
    rw [if_neg h, if_neg h2]
    norm_cast

end TableCipher

/-! ## The tables built by `encrypt` and `decrypt`, and what is read from them -/

namespace TableCipher

theorem get_encryptWrite (T : List Char) (R C : Nat) {p : Nat × Nat} (hr : p.1 < R)
    (hc : p.2 < C) :
    (encryptWrite T R C (Table.blank R C)).1.get p.1 p.2 = gridCell T C p := by
  have hspec := (writeCells_spec T R C (rowMajor R C) (Table.blank R C) 0
    (Table.shape_blank R C) (nodup_rowMajor R C) (fun q hq => mem_rowMajor.mp hq)
    (fun q _ => Table.get_blank R C q.1 q.2)).2 p
  have hmem : p ∈ rowMajor R C := mem_rowMajor.mpr ⟨hr, hc⟩
  have hidx : cellIndex (rowMajor R C) p = p.1 * C + p.2 :=
    cellIndex_of_map_eq_range (fun q => q.1 * C + q.2) (rowMajor R C)
      (by rw [map_index_rowMajor, length_rowMajor]) hmem
  rw [encryptWrite_eq, hspec, if_pos hmem, hidx, Nat.zero_add]
  rfl

/-- The text returned by the two loops of `encrypt`: the cells of the filled grid in
column order, without the blanks. -/
theorem encryptRead_encryptWrite (T : List Char) (R C : Nat) :
    encryptRead (encryptWrite T R C (Table.blank R C)).1 R C
      = ((colMajor R C).map (gridCell T C)).filter fun ch => decide (ch ≠ ' ') := by
  rw [encryptRead_eq, readCells]
  congr 1
  apply List.map_congr_left
  intro p hp
  exact get_encryptWrite T R C (mem_colMajor.mp hp).1 (mem_colMajor.mp hp).2

theorem get_decryptWrite (X : List Char) (R C last : Nat) (p : Nat × Nat) :
    (decryptWrite X R C last (Table.blank R C)).1.get p.1 p.2
      = if p ∈ decryptCells R C last then X.getD (cellIndex (decryptCells R C last) p) ' '
        else ' ' := by
  have hspec := (writeCells_spec X R C (decryptCells R C last) (Table.blank R C) 0
    (Table.shape_blank R C) ((nodup_colMajor R C).filter _)
    (fun q hq => mem_colMajor.mp (List.mem_of_mem_filter hq))
    (fun q _ => Table.get_blank R C q.1 q.2)).2 p
  rw [decryptWrite_eq]
  rw [decryptCells] at hspec ⊢
  rw [hspec, Nat.zero_add, Table.get_blank]

theorem map_getD_range (T : List Char) {m : Nat} (h : T.length ≤ m) :
    (List.range m).map (fun k => T.getD k ' ') = T ++ List.replicate (m - T.length) ' ' := by
  apply List.ext_getElem
  · simp; omega
  · intro i h1 h2
    simp only [List.getElem_map, List.getElem_range]
    by_cases hi : i < T.length
    · rw [List.getElem_append_left hi, List.getD_eq_getElem _ _ hi]
    · rw [List.getElem_append_right (by omega), List.getElem_replicate,
        getD_blank_of_le T (by omega)]

theorem map_gridCell_rowMajor (T : List Char) {R C : Nat} (h : T.length ≤ R * C) :
    (rowMajor R C).map (gridCell T C) = T ++ List.replicate (R * C - T.length) ' ' := by
  rw [← map_getD_range T h, ← map_index_rowMajor, List.map_map]
  rfl

theorem filter_blank_append_replicate (T : List Char) (k : Nat) :
    (T ++ List.replicate k ' ').filter (fun ch => decide (ch ≠ ' '))
      = T.filter (fun ch => decide (ch ≠ ' ')) := by
  rw [List.filter_append]
  have : (List.replicate k ' ').filter (fun ch => decide (ch ≠ ' ')) = [] := by
    rw [List.filter_eq_nil_iff]
    intro a ha
    rw [List.mem_replicate] at ha
    simp [ha.2]
  rw [this, List.append_nil]

theorem filter_blank_of_not_mem {T : List Char} (h : ' ' ∉ T) :
    T.filter (fun ch => decide (ch ≠ ' ')) = T := by
  rw [List.filter_eq_self]
  intro a ha
  have : a ≠ ' ' := fun e => h (e ▸ ha)
  simpa using this

theorem gridCell_ne_blank_iff {T : List Char} (h : ' ' ∉ T) (C : Nat) (p : Nat × Nat) :
    gridCell T C p ≠ ' ' ↔ p.1 * C + p.2 < T.length := by
  unfold gridCell
  constructor
  · intro h1
    by_contra h2
    exact h1 (getD_blank_of_le T (by omega))
  · intro h1 h2
    rw [List.getD_eq_getElem _ _ h1] at h2
    exact h (h2 ▸ List.getElem_mem _)

end TableCipher

/-! ## `encrypt` and `decrypt` over natural numbers -/

namespace TableCipher

/-- The decision tree of `encrypt` for a positive number of columns. -/
theorem encrypt_eq (L : CLocale) (C : Nat) (hC : 0 < C) (T : List Char) :
    encrypt L { numColumns := (C : Int) } T =
      if T.isEmpty then .error .emptyText
      else if T.any (fun ch => !L.iswalpha ch && ch != ' ') then .error .invalidTextCharacter
      else if C > T.length then .error .keyExceedsTextLength
      else if rowCount T.length C > 10000 ∨ C > 10000 then .error .tableTooLarge
      else .ok (encryptRead
        (encryptWrite T (rowCount T.length C) C (Table.blank (rowCount T.length C) C)).1
        (rowCount T.length C) C) := by
  unfold encrypt
  simp only [int_rowCount T.length C hC, Int.toNat_natCast, gt_iff_lt, Nat.cast_lt,
    Nat.cast_ofNat]
  have h1 : ((10000 : Int) < (rowCount T.length C : Int)) ↔ 10000 < rowCount T.length C := by
    omega
  have h2 : ((10000 : Int) < (C : Int)) ↔ 10000 < C := by omega
  simp only [h1, h2]

/-- The decision tree of `decrypt` for a positive number of columns. -/
theorem decrypt_eq (L : CLocale) (C : Nat) (hC : 0 < C) (X : List Char) :
    decrypt L { numColumns := (C : Int) } X =
      if X.isEmpty then .error .emptyText
      else if X.any (fun ch => !L.iswalpha ch && ch != ' ') then .error .invalidTextCharacter
      else if C > X.length then .error .keyExceedsTextLength
      else .ok (decryptRead
        (decryptWrite X (rowCount X.length C) C (lastRow X.length C)
          (Table.blank (rowCount X.length C) C)).1
        (rowCount X.length C) C) := by
  unfold decrypt
  simp only [int_rowCount X.length C hC, int_lastRow, Int.toNat_natCast, gt_iff_lt,
    Nat.cast_lt]

/-- On a text without blanks, the cells that `decrypt` fills are those that `encrypt`
read, in the same order. -/
theorem decryptCells_eq_filter {n C : Nat} (hC : 0 < C) :
    decryptCells (rowCount n C) C (lastRow n C)
      = (colMajor (rowCount n C) C).filter fun p => decide (p.1 * C + p.2 < n) := by
  unfold decryptCells
  apply List.filter_congr
  intro p hp
  have hb := mem_colMajor.mp hp
  have := inText_iff_not_skipped (n := n) hC hb.1 hb.2
  by_cases h : p.1 * C + p.2 < n
  · simp [h, this.mp h]
  · have h3 : p.1 = rowCount n C - 1 ∧ p.2 ≥ lastRow n C := by
      by_contra h4
      exact h (this.mpr h4)
    have e1 : decide (p.1 * C + p.2 < n) = false := decide_eq_false h
    have e2 : decide (p.1 = rowCount n C - 1 ∧ p.2 ≥ lastRow n C) = true := decide_eq_true h3
    rw [e1, e2]
    rfl

theorem encrypt_noBlank {T : List Char} (hsp : ' ' ∉ T) {C : Nat} (hC : 0 < C) :
    encryptRead (encryptWrite T (rowCount T.length C) C
        (Table.blank (rowCount T.length C) C)).1 (rowCount T.length C) C
      = (decryptCells (rowCount T.length C) C (lastRow T.length C)).map (gridCell T C) := by
  rw [encryptRead_encryptWrite, decryptCells_eq_filter hC, List.filter_map]
  congr 1
  apply List.filter_congr
  intro p _
  have := gridCell_ne_blank_iff hsp C p
  by_cases h : p.1 * C + p.2 < T.length
  · simp [h, this.mpr h]
  · have h2 : gridCell T C p = ' ' := by
      by_contra h3
      exact h (this.mp h3)
    simp [h, h2]

theorem length_decryptCells {n C : Nat} (hC : 0 < C) :
    (decryptCells (rowCount n C) C (lastRow n C)).length = n := by
  rw [decryptCells_eq_filter hC]
  exact length_filter_colMajor (le_rowCount_mul hC)

/-- The two loops of `decrypt` undo the two loops of `encrypt` on a text without blanks. -/
theorem decrypt_encrypt_core {T : List Char} (hsp : ' ' ∉ T) {C : Nat} (hC : 0 < C)
    (E : List Char)
    (hE : E = (decryptCells (rowCount T.length C) C (lastRow T.length C)).map (gridCell T C)) :
    E.length = T.length ∧
    decryptRead (decryptWrite E (rowCount E.length C) C (lastRow E.length C)
      (Table.blank (rowCount E.length C) C)).1 (rowCount E.length C) C = T := by
  have hlen : E.length = T.length := by
    rw [hE, List.length_map, length_decryptCells hC]
  refine ⟨hlen, ?_⟩
  rw [hlen, decryptRead_eq, readCells]
  have hmap : ((rowMajor (rowCount T.length C) C).map fun p =>
      (decryptWrite E (rowCount T.length C) C (lastRow T.length C)
        (Table.blank (rowCount T.length C) C)).1.get p.1 p.2)
      = (rowMajor (rowCount T.length C) C).map (gridCell T C) := by
    apply List.map_congr_left
    intro p hp
    have hb := mem_rowMajor.mp hp
    rw [get_decryptWrite]
    by_cases hm : p ∈ decryptCells (rowCount T.length C) C (lastRow T.length C)
    · rw [if_pos hm, hE, getD_map_cellIndex _ _ _ hm]
    · rw [if_neg hm]
      rw [decryptCells_eq_filter hC, List.mem_filter] at hm
      have h1 : ¬ p.1 * C + p.2 < T.length := by
        intro h2
        exact hm ⟨mem_colMajor.mpr hb, by simpa using h2⟩
      exact (getD_blank_of_le T (by omega)).symm
  rw [hmap, map_gridCell_rowMajor T (le_rowCount_mul hC), filter_blank_append_replicate,
    filter_blank_of_not_mem hsp]

end TableCipher

/-! ## Consequences for `encrypt` followed by `decrypt` -/

namespace TableCipher

theorem new_ok_iff {k : Int} {c : TableCipher} :
    new k = .ok c ↔ 1 ≤ k ∧ k ≤ 1000 ∧ c = { numColumns := k } := by
  unfold new validateKey
  by_cases h1 : k ≤ 0
  · simp only [if_pos h1]
    constructor
    · intro h; cases h
    · intro h; omega
  · by_cases h2 : k > 1000
    · simp only [if_neg h1, if_pos h2]
      constructor
      · intro h; cases h
      · intro h; omega
    · simp only [if_neg h1, if_neg h2]
      constructor
      · intro h
        cases h
        exact ⟨by omega, by omega, rfl⟩
      · rintro ⟨_, _, rfl⟩
        rfl

/-- A cipher that was constructed has a positive number of columns, at most 1000. -/
theorem exists_nat_of_new {k : Int} {c : TableCipher} (h : new k = .ok c) :
    ∃ C : Nat, 0 < C ∧ C ≤ 1000 ∧ k = (C : Int) ∧ c = { numColumns := (C : Int) } := by
  obtain ⟨h1, h2, rfl⟩ := new_ok_iff.mp h
  refine ⟨k.toNat, by omega, by omega, by omega, ?_⟩
  congr 1
  omega

/-- What a successful `encrypt` says about its argument and its result. -/
theorem encrypt_ok_inv {L : CLocale} {C : Nat} (hC : 0 < C) {T E : List Char}
    (h : encrypt L { numColumns := (C : Int) } T = .ok E) :
    T ≠ [] ∧ (T.any (fun ch => !L.iswalpha ch && ch != ' ') = false) ∧ C ≤ T.length ∧
    rowCount T.length C ≤ 10000 ∧
    E = ((colMajor (rowCount T.length C) C).map (gridCell T C)).filter
      fun ch => decide (ch ≠ ' ') := by
  rw [encrypt_eq L C hC] at h
  split_ifs at h with h1 h2 h3 h4
  rw [← encryptRead_encryptWrite]
  refine ⟨?_, by simpa using h2, by omega, by omega, (Except.ok.inj h).symm⟩
  intro e
  exact h1 (by simp [e])

theorem mem_of_mem_encrypt {T : List Char} {R C : Nat} {ch : Char}
    (h : ch ∈ ((colMajor R C).map (gridCell T C)).filter fun ch => decide (ch ≠ ' ')) :
    ch ∈ T := by
  rw [List.mem_filter, List.mem_map] at h
  obtain ⟨⟨p, _, hp⟩, hne⟩ := h
  have hne2 : ch ≠ ' ' := by simpa using hne
  subst hp
  unfold gridCell at hne2 ⊢
  by_cases hlt : p.1 * C + p.2 < T.length
  · rw [List.getD_eq_getElem _ _ hlt]
    exact List.getElem_mem _
  · exact absurd (getD_blank_of_le T (by omega)) hne2

/-- The result of `encrypt` is a rearrangement of the text without its blanks. -/
theorem encrypt_perm (T : List Char) {C : Nat} (hC : 0 < C) :
    List.Perm
      (((colMajor (rowCount T.length C) C).map (gridCell T C)).filter
        fun ch => decide (ch ≠ ' '))
      (T.filter fun ch => decide (ch ≠ ' ')) := by
  have h1 := (((colMajor_perm_rowMajor (rowCount T.length C) C).map (gridCell T C)).filter
    fun ch => decide (ch ≠ ' '))
  rw [map_gridCell_rowMajor T (le_rowCount_mul hC), filter_blank_append_replicate] at h1
  exact h1

theorem length_filter_add_count (T : List Char) :
    (T.filter fun ch => decide (ch ≠ ' ')).length + T.count ' ' = T.length := by
  induction T with
  | nil => rfl
  | cons a rest ih =>
    by_cases h : a = ' '
    · subst h
      rw [List.filter_cons_of_neg (by simp), List.count_cons_self, List.length_cons]
      omega
    · rw [List.filter_cons_of_pos (by simpa using h), List.count_cons_of_ne (fun e => h e.symm),
        List.length_cons, List.length_cons]
      omega

/-- The round trip on a text without blanks. -/
theorem decrypt_encrypt_of_noBlank {L : CLocale} {C : Nat} (hC : 0 < C) {T E : List Char}
    (h : encrypt L { numColumns := (C : Int) } T = .ok E) (hsp : ' ' ∉ T) :
    decrypt L { numColumns := (C : Int) } E = .ok T := by
  obtain ⟨hne, hval, hlen, _, hE⟩ := encrypt_ok_inv hC h
  have hE2 : E = (decryptCells (rowCount T.length C) C (lastRow T.length C)).map
      (gridCell T C) := by
    rw [hE, ← encryptRead_encryptWrite, encrypt_noBlank hsp hC]
  obtain ⟨hl, hrt⟩ := decrypt_encrypt_core hsp hC E hE2
  rw [decrypt_eq L C hC]
  have c1 : ¬ E.isEmpty = true := by
    intro e
    have : E.length = 0 := by simpa using e
    have : T.length ≠ 0 := fun e2 => hne (List.length_eq_zero.mp e2)
    omega
  have c2 : ¬ E.any (fun ch => !L.iswalpha ch && ch != ' ') = true := by
    intro e
    obtain ⟨ch, hch, hbad⟩ := List.any_eq_true.mp e
    have hT : ch ∈ T := mem_of_mem_encrypt (hE ▸ hch)
    have : T.any (fun ch => !L.iswalpha ch && ch != ' ') = true :=
      List.any_eq_true.mpr ⟨ch, hT, hbad⟩
    rw [hval] at this
    cases this
  have c3 : ¬ C > E.length := by omega
  rw [if_neg c1, if_neg c2, if_neg c3, hrt]

/-- The result of `decrypt` holds no blank. -/
theorem not_mem_decrypt {L : CLocale} {C : Nat} (hC : 0 < C) {X D : List Char}
    (h : decrypt L { numColumns := (C : Int) } X = .ok D) : ' ' ∉ D := by
  rw [decrypt_eq L C hC] at h
  split_ifs at h
  have hD := (Except.ok.inj h).symm
  rw [decryptRead_eq, readCells] at hD
  intro hmem
  rw [hD, List.mem_filter] at hmem
  simp at hmem

end TableCipher

/-! ## Claims on the table cipher -/

namespace TableCipher

/-- C1 (failing input): with 2 columns the text "А БВ" is accepted by `encrypt`, which
returns "ВАБ"; `decrypt` turns that into "АВБ", which is not the text: the space is lost
and two letters have changed places. -/
theorem roundtrip_loses_space :
    new 2 = .ok { numColumns := 2 } ∧
    encrypt ruLocale { numColumns := 2 } ['А', ' ', 'Б', 'В'] = .ok ['В', 'А', 'Б'] ∧
    decrypt ruLocale { numColumns := 2 } ['В', 'А', 'Б'] = .ok ['А', 'В', 'Б'] ∧
    decrypt ruLocale { numColumns := 2 } ['В', 'А', 'Б'] ≠ .ok ['А', ' ', 'Б', 'В'] := by
  decide

/-- C3 (failing input): with 1 column the 3-character text "А Б" is accepted by `encrypt`
and encrypted to the 2-character text "АБ": the space is dropped. -/
theorem encrypt_length_shrinks :
    encrypt ruLocale { numColumns := 1 } ['А', ' ', 'Б'] = .ok ['А', 'Б'] ∧
    ['А', 'Б'].length ≠ ['А', ' ', 'Б'].length := by
  decide

/-- C4 (counterexample): `TableCipher(3).encrypt("ПРИВЕТМИР")` does not return the
documented "ИТРЕРВИПМ". -/
theorem encrypt_example_differs :
    encrypt ruLocale { numColumns := 3 } textPrivetMir ≠ .ok textDocCipher := by
  decide

/-- C4 (amended): in every locale where the letters of "ПРИВЕТМИР" are alphabetic,
`TableCipher(3)` is constructed and its `encrypt("ПРИВЕТМИР")` succeeds and returns
exactly "ИТРРЕИПВМ". -/
theorem encrypt_example (L : CLocale) (hL : ∀ ch ∈ textPrivetMir, L.iswalpha ch = true) :
    new 3 = .ok { numColumns := 3 } ∧
    encrypt L { numColumns := 3 } textPrivetMir = .ok textRouteCipher := by
  refine ⟨by decide, ?_⟩
  have hany : ¬ textPrivetMir.any (fun ch => !L.iswalpha ch && ch != ' ') = true := by
    intro e
    obtain ⟨ch, hch, hbad⟩ := List.any_eq_true.mp e
    simp [hL ch hch] at hbad
  have h := encrypt_eq L 3 (by decide) textPrivetMir
  rw [if_neg (by decide), if_neg hany, if_neg (by decide), if_neg (by decide)] at h
  exact h.trans (by decide)

/-- C4 (witness): the amended example in the sample Russian locale. -/
theorem encrypt_example_witness :
    (∀ ch ∈ textPrivetMir, ruLocale.iswalpha ch = true) ∧
    new 3 = .ok { numColumns := 3 } ∧
    encrypt ruLocale { numColumns := 3 } textPrivetMir = .ok textRouteCipher :=
  ⟨by decide, encrypt_example ruLocale (by decide)⟩

/-- C5 (counterexample): `TableCipher(3).decrypt("ИТРЕРВИПМ")` returns "ИЕИПРТМВР", not
the documented "ПРИВЕТМИР". -/
theorem decrypt_example_differs :
    decrypt ruLocale { numColumns := 3 } textDocCipher = .ok textDocPlain ∧
    decrypt ruLocale { numColumns := 3 } textDocCipher ≠ .ok textPrivetMir := by
  decide

/-- C5 (amended): in every locale where the letters of "ПРИВЕТМИР" are alphabetic,
`TableCipher(3).decrypt` succeeds on both texts: it returns "ПРИВЕТМИР" for
"ИТРРЕИПВМ", the text that `encrypt` produces, and "ИЕИПРТМВР" for "ИТРЕРВИПМ". -/
theorem decrypt_example (L : CLocale) (hL : ∀ ch ∈ textPrivetMir, L.iswalpha ch = true) :
    decrypt L { numColumns := 3 } textRouteCipher = .ok textPrivetMir ∧
    decrypt L { numColumns := 3 } textDocCipher = .ok textDocPlain := by
  have hsub1 : ∀ ch ∈ textRouteCipher, ch ∈ textPrivetMir := by decide
  have hsub2 : ∀ ch ∈ textDocCipher, ch ∈ textPrivetMir := by decide
  have hany1 : ¬ textRouteCipher.any (fun ch => !L.iswalpha ch && ch != ' ') = true := by
    intro e
    obtain ⟨ch, hch, hbad⟩ := List.any_eq_true.mp e
    simp [hL ch (hsub1 ch hch)] at hbad
  have hany2 : ¬ textDocCipher.any (fun ch => !L.iswalpha ch && ch != ' ') = true := by
    intro e
    obtain ⟨ch, hch, hbad⟩ := List.any_eq_true.mp e
    simp [hL ch (hsub2 ch hch)] at hbad
  have h1 := decrypt_eq L 3 (by decide) textRouteCipher
  rw [if_neg (by decide), if_neg hany1, if_neg (by decide)] at h1
  have h2 := decrypt_eq L 3 (by decide) textDocCipher
  rw [if_neg (by decide), if_neg hany2, if_neg (by decide)] at h2
  exact ⟨h1.trans (by decide), h2.trans (by decide)⟩

/-- C5 (witness): the amended example in the sample Russian locale. -/
theorem decrypt_example_witness :
    (∀ ch ∈ textPrivetMir, ruLocale.iswalpha ch = true) ∧
    decrypt ruLocale { numColumns := 3 } textRouteCipher = .ok textPrivetMir ∧
    decrypt ruLocale { numColumns := 3 } textDocCipher = .ok textDocPlain :=
  ⟨by decide, decrypt_example ruLocale (by decide)⟩

/-- C6: for every constructed cipher (1 to 1000 columns) and every text without a space
that `encrypt` accepts (not empty, every character alphabetic, at least as many
characters as columns, at most 10000 rows), `encrypt` succeeds and `decrypt` of its result
succeeds and returns the text. -/
theorem decrypt_encrypt_noSpace (L : CLocale) (k : Int) (c : TableCipher) (T : List Char)
    (hc : new k = .ok c) (hne : T ≠ []) (hal : ∀ ch ∈ T, L.iswalpha ch = true)
    (hsp : ' ' ∉ T) (hk : k ≤ (T.length : Int))
    (hrows : ((T.length : Int) + k - 1) / k ≤ 10000) :
    ∃ E, encrypt L c T = .ok E ∧ decrypt L c E = .ok T := by
  obtain ⟨C, hC, hC2, rfl, rfl⟩ := exists_nat_of_new hc
  rw [int_rowCount T.length C hC] at hrows
  have hany : ¬ T.any (fun ch => !L.iswalpha ch && ch != ' ') = true := by
    intro e
    obtain ⟨ch, hch, hbad⟩ := List.any_eq_true.mp e
    simp [hal ch hch] at hbad
  have hemp : ¬ T.isEmpty = true := by
    intro e
    exact hne (List.isEmpty_iff.mp e)
  have h := encrypt_eq L C hC T
  rw [if_neg hemp, if_neg hany, if_neg (by omega), if_neg (by omega)] at h
  exact ⟨_, h, decrypt_encrypt_of_noBlank hC h hsp⟩

/-- C6 (witness): the round trip of test 1 of `demonstrateCipher`. -/
theorem decrypt_encrypt_noSpace_witness :
    new 3 = .ok { numColumns := 3 } ∧ textPrivetMir ≠ [] ∧
    (∀ ch ∈ textPrivetMir, ruLocale.iswalpha ch = true) ∧ ' ' ∉ textPrivetMir ∧
    ∃ E, encrypt ruLocale { numColumns := 3 } textPrivetMir = .ok E ∧
      decrypt ruLocale { numColumns := 3 } E = .ok textPrivetMir :=
  ⟨by decide, by decide, by decide, by decide,
    decrypt_encrypt_noSpace ruLocale 3 { numColumns := 3 } textPrivetMir
      (by decide) (by decide) (by decide) (by decide) (by decide) (by decide)⟩

end TableCipher

/-! ## The alphabet and its index table -/

namespace modAlphaCipher

theorem find_initAlphaNum_of_mem :
    ∀ ch ∈ numAlpha, initAlphaNum.find ch = some (alphaIndex ch) := by decide

theorem keys_initAlphaNum : initAlphaNum.map Prod.fst = numAlpha := by decide

theorem length_initAlphaNum : initAlphaNum.length = 33 := by decide

theorem length_numAlpha : numAlpha.length = 33 := by decide

theorem alphaIndex_letterAt_range :
    ∀ i ∈ List.range 33, alphaIndex (letterAt (i : Int)) = (i : Int) := by decide

theorem letterAt_alphaIndex : ∀ ch ∈ numAlpha, letterAt (alphaIndex ch) = ch := by decide

theorem alphaIndex_range : ∀ ch ∈ numAlpha, 0 ≤ alphaIndex ch ∧ alphaIndex ch < 33 := by
  decide

theorem letterAt_mem_range : ∀ i ∈ List.range 33, letterAt (i : Int) ∈ numAlpha := by decide

theorem find_eq_none_of_not_mem_keys :
    ∀ (m : AlphaMap) (ch : Char), ch ∉ m.map Prod.fst → m.find ch = none
  | [], _, _ => rfl
  | (k0, v0) :: rest, ch, h => by
    have h1 : ¬ k0 = ch := fun e => h (by simp [e])
    have h2 : ch ∉ rest.map Prod.fst := fun e => h (by simp only [List.map_cons]; exact List.mem_cons_of_mem _ e)
    simp only [AlphaMap.find, if_neg h1]
    exact find_eq_none_of_not_mem_keys rest ch h2

/-- The table built by the constructor maps each letter of the alphabet to its position,
and holds no other character. -/
theorem find_initAlphaNum (ch : Char) :
    initAlphaNum.find ch = if ch ∈ numAlpha then some (alphaIndex ch) else none := by
  by_cases h : ch ∈ numAlpha
  · rw [if_pos h]
    exact find_initAlphaNum_of_mem ch h
  · rw [if_neg h]
    apply find_eq_none_of_not_mem_keys
    rw [keys_initAlphaNum]
    exact h

theorem convert_initAlphaNum (s : List Char) :
    convert initAlphaNum s = (stripNonAlphabet s).map alphaIndex := by
  unfold convert stripNonAlphabet
  induction s with
  | nil => rfl
  | cons ch rest ih =>
    by_cases h : ch ∈ numAlpha
    · rw [List.filterMap_cons, find_initAlphaNum, if_pos h,
        List.filter_cons_of_pos (by simpa using h), List.map_cons, ih]
    · rw [List.filterMap_cons, find_initAlphaNum, if_neg h,
        List.filter_cons_of_neg (by simpa using h), ih]

theorem convert_range (s : List Char) :
    ∀ v ∈ convert initAlphaNum s, 0 ≤ v ∧ v < 33 := by
  intro v hv
  rw [convert_initAlphaNum, List.mem_map] at hv
  obtain ⟨ch, hch, rfl⟩ := hv
  have hmem : ch ∈ numAlpha := by
    have := (List.mem_filter.mp hch).2
    simpa using this
  exact alphaIndex_range ch hmem

theorem getD_range {l : List Int} (h : ∀ v ∈ l, 0 ≤ v ∧ v < 33) (j : Nat) :
    0 ≤ l.getD j 0 ∧ l.getD j 0 < 33 := by
  by_cases hj : j < l.length
  · rw [List.getD_eq_getElem _ _ hj]
    exact h _ (List.getElem_mem _)
  · rw [List.getD_eq_getElem?_getD, List.getElem?_eq_none (by omega)]
    exact ⟨le_refl _, by decide⟩

theorem sizeT_of_range {x : Int} (h0 : 0 ≤ x) (h1 : x < 2 ^ 64) : sizeT x = x :=
  Int.emod_eq_of_lt h0 h1

/-- The index-to-letter conversion succeeds on indices below the alphabet length. -/
theorem convertVec_ok : ∀ (l : List Int), (∀ v ∈ l, 0 ≤ v ∧ v < 33) →
    convertVec l = .ok (l.map letterAt)
  | [], _ => rfl
  | i :: rest, h => by
    have hi := h i (List.mem_cons_self _ _)
    have hr := convertVec_ok rest (fun v hv => h v (List.mem_cons_of_mem _ hv))
    have hcond : ¬ (i < 0 ∨ i ≥ (numAlpha.length : Int)) := by
      rw [length_numAlpha]
      omega
    simp only [convertVec, if_neg hcond, hr, List.map_cons]
    rfl

/-- What a successful construction says about the key string and the object. -/
theorem new_ok_inv {L : CLocale} {skey : List Char} {c : modAlphaCipher}
    (h : new L skey = .ok c) :
    skey ≠ [] ∧ (∀ ch ∈ skey, L.iswalpha ch = true) ∧ c.alphaNum = initAlphaNum ∧
    c.key = indexSequence L skey ∧ c.key ≠ [] := by
  dsimp only [new] at h
  split_ifs at h with h1 h2 h3
  have hc := (Except.ok.inj h).symm
  subst hc
  refine ⟨fun e => h1 (by simp [e]), ?_, rfl, ?_, ?_⟩
  · intro ch hch
    by_contra hne
    apply h2
    exact List.any_eq_true.mpr ⟨ch, hch, by simpa using hne⟩
  · exact convert_initAlphaNum _
  · intro e
    apply h3
    simp only at e
    simp [e]

end modAlphaCipher

/-! ## The two loops of the Gronsfeld cipher -/

namespace modAlphaCipher

theorem encryptLoop_eq (c : modAlphaCipher) (hA : c.alphaNum = initAlphaNum) :
    ∀ (work : List Int) (i : Nat), encryptLoop c i work =
      .ok ((List.range work.length).map fun j =>
        sizeT (work.getD j 0 + c.key.getD ((i + j) % c.key.length) 0) % 33) := by
  intro work
  induction work with
  | nil => intro i; rfl
  | cons w rest ih =>
    intro i
    have hlen : (c.alphaNum.length : Int) = 33 := by
      rw [hA, length_initAlphaNum]; rfl
    have hcond : ¬ (sizeT (w + c.key.getD (i % c.key.length) 0) % 33 < 0 ∨
        sizeT (w + c.key.getD (i % c.key.length) 0) % 33 ≥ 33) := by
      have h1 := Int.emod_nonneg (sizeT (w + c.key.getD (i % c.key.length) 0))
        (show (33 : Int) ≠ 0 by decide)
      have h2 := Int.emod_lt_of_pos (sizeT (w + c.key.getD (i % c.key.length) 0))
        (show (0 : Int) < 33 by decide)
      omega
    simp only [encryptLoop, hlen, if_neg hcond, ih (i + 1), List.length_cons,
      List.range_succ_eq_map, List.map_cons, List.map_map, List.getD_cons_zero, Nat.add_zero]
    congr 2
    apply List.map_congr_left
    intro j _
    simp only [Function.comp, List.getD_cons_succ]
    congr 5
    omega

theorem decryptLoop_eq (c : modAlphaCipher) (hA : c.alphaNum = initAlphaNum) :
    ∀ (work : List Int) (i : Nat), decryptLoop c i work =
      .ok ((List.range work.length).map fun j =>
        sizeT (work.getD j 0 + 33 - c.key.getD ((i + j) % c.key.length) 0) % 33) := by
  intro work
  induction work with
  | nil => intro i; rfl
  | cons w rest ih =>
    intro i
    have hlen : (c.alphaNum.length : Int) = 33 := by
      rw [hA, length_initAlphaNum]; rfl
    have hcond : ¬ (sizeT (w + 33 - c.key.getD (i % c.key.length) 0) % 33 < 0 ∨
        sizeT (w + 33 - c.key.getD (i % c.key.length) 0) % 33 ≥ 33) := by
      have h1 := Int.emod_nonneg (sizeT (w + 33 - c.key.getD (i % c.key.length) 0))
        (show (33 : Int) ≠ 0 by decide)
      have h2 := Int.emod_lt_of_pos (sizeT (w + 33 - c.key.getD (i % c.key.length) 0))
        (show (0 : Int) < 33 by decide)
      omega
    simp only [decryptLoop, hlen, if_neg hcond, ih (i + 1), List.length_cons,
      List.range_succ_eq_map, List.map_cons, List.map_map, List.getD_cons_zero, Nat.add_zero]
    congr 2
    apply List.map_congr_left
    intro j _
    simp only [Function.comp, List.getD_cons_succ]
    congr 5
    omega

end modAlphaCipher

/-! ## `encrypt` and `decrypt` of a constructed Gronsfeld cipher -/

namespace modAlphaCipher

theorem indexSequence_range (L : CLocale) (s : List Char) :
    ∀ v ∈ indexSequence L s, 0 ≤ v ∧ v < 33 := by
  intro v hv
  have h := convert_range (toUpper L s) v
  rw [convert_initAlphaNum] at h
  exact h hv

theorem not_any_of_valid {L : CLocale} {T : List Char}
    (hval : ∀ ch ∈ T, L.iswalpha ch = true ∨ ch = ' ') :
    ¬ T.any (fun ch => !L.iswalpha ch && ch != ' ') = true := by
  intro e
  obtain ⟨ch, hch, hbad⟩ := List.any_eq_true.mp e
  rcases hval ch hch with h | h
  · simp [h] at hbad
  · simp [h] at hbad

/-- The decision tree of `encrypt` for a constructed cipher, past the range checks. -/
theorem encrypt_tree {L : CLocale} {c : modAlphaCipher} (hA : c.alphaNum = initAlphaNum)
    (hK : ∀ v ∈ c.key, 0 ≤ v ∧ v < 33) (T : List Char) :
    encrypt L c T =
      if T.isEmpty then .error .emptyText
      else if T.any (fun ch => !L.iswalpha ch && ch != ' ') then .error .invalidTextCharacter
      else if (indexSequence L T).isEmpty then .error .textHasNoValidLetters
      else .ok (encryptRule 33 (indexSequence L T) c.key) := by
  have hw : convert c.alphaNum (toUpper L T) = indexSequence L T := by
    rw [hA, convert_initAlphaNum]; rfl
  unfold encrypt
  simp only [hw, encryptLoop_eq c hA]
  by_cases h1 : T.isEmpty = true
  · simp only [if_pos h1]
  · by_cases h2 : T.any (fun ch => !L.iswalpha ch && ch != ' ') = true
    · simp only [if_neg h1, if_pos h2]
    · by_cases h3 : (indexSequence L T).isEmpty = true
      · simp only [if_neg h1, if_neg h2, if_pos h3]
      · simp only [if_neg h1, if_neg h2, if_neg h3]
        rw [convertVec_ok]
        · rw [List.map_map, encryptRule]
          congr 1
          apply List.map_congr_left
          intro j _
          have hp := getD_range (indexSequence_range L T) j
          have hk := getD_range hK (j % c.key.length)
          simp only [Function.comp, Nat.zero_add]
          rw [sizeT_of_range (by omega) (by omega)]
        · intro v hv
          obtain ⟨j, _, rfl⟩ := List.mem_map.mp hv
          exact ⟨Int.emod_nonneg _ (by decide), Int.emod_lt_of_pos _ (by decide)⟩

/-- The decision tree of `decrypt` for a constructed cipher, past the range checks. -/
theorem decrypt_tree {L : CLocale} {c : modAlphaCipher} (hA : c.alphaNum = initAlphaNum)
    (hK : ∀ v ∈ c.key, 0 ≤ v ∧ v < 33) (X : List Char) :
    decrypt L c X =
      if X.isEmpty then .error .emptyText
      else if X.any (fun ch => !L.iswalpha ch && ch != ' ') then .error .invalidTextCharacter
      else if (indexSequence L X).isEmpty then .error .textHasNoValidLetters
      else .ok (decryptRule 33 (indexSequence L X) c.key) := by
  have hw : convert c.alphaNum (toUpper L X) = indexSequence L X := by
    rw [hA, convert_initAlphaNum]; rfl
  have hlen : (c.alphaNum.length : Int) = 33 := by
    rw [hA, length_initAlphaNum]; rfl
  unfold decrypt
  simp only [hw, decryptLoop_eq c hA]
  by_cases h1 : X.isEmpty = true
  · simp only [if_pos h1]
  · by_cases h2 : X.any (fun ch => !L.iswalpha ch && ch != ' ') = true
    · simp only [if_neg h1, if_pos h2]
    · by_cases h3 : (indexSequence L X).isEmpty = true
      · simp only [if_neg h1, if_neg h2, if_pos h3]
      · simp only [if_neg h1, if_neg h2, if_neg h3]
        rw [convertVec_ok]
        · rw [List.map_map, decryptRule]
          congr 1
          apply List.map_congr_left
          intro j _
          have hp := getD_range (indexSequence_range L X) j
          have hk := getD_range hK (j % c.key.length)
          simp only [Function.comp, Nat.zero_add]
          rw [sizeT_of_range (by omega) (by omega)]
        · intro v hv
          obtain ⟨j, _, rfl⟩ := List.mem_map.mp hv
          exact ⟨Int.emod_nonneg _ (by decide), Int.emod_lt_of_pos _ (by decide)⟩

theorem key_range_of_new {L : CLocale} {skey : List Char} {c : modAlphaCipher}
    (h : new L skey = .ok c) : ∀ v ∈ c.key, 0 ≤ v ∧ v < 33 := by
  obtain ⟨_, _, _, hk, _⟩ := new_ok_inv h
  rw [hk]
  exact indexSequence_range L skey

end modAlphaCipher

/-! ## Letters and indices -/

namespace modAlphaCipher

theorem letterAt_mem {v : Int} (h : 0 ≤ v ∧ v < 33) : letterAt v ∈ numAlpha := by
  obtain ⟨n, rfl⟩ := Int.eq_ofNat_of_zero_le h.1
  exact letterAt_mem_range n (List.mem_range.mpr (by omega))

theorem alphaIndex_letterAt {v : Int} (h : 0 ≤ v ∧ v < 33) : alphaIndex (letterAt v) = v := by
  obtain ⟨n, rfl⟩ := Int.eq_ofNat_of_zero_le h.1
  exact alphaIndex_letterAt_range n (List.mem_range.mpr (by omega))

theorem stripNonAlphabet_of_subset {s : List Char} (h : ∀ ch ∈ s, ch ∈ numAlpha) :
    stripNonAlphabet s = s := by
  unfold stripNonAlphabet
  rw [List.filter_eq_self]
  intro ch hch
  simpa using h ch hch

theorem map_toupper_of_subset {L : CLocale} (hUp : ∀ ch ∈ numAlpha, L.toupper ch = ch)
    {s : List Char} (h : ∀ ch ∈ s, ch ∈ numAlpha) : s.map L.toupper = s := by
  conv_rhs => rw [← List.map_id s]
  apply List.map_congr_left
  intro ch hch
  exact hUp ch (h ch hch)

/-- The index sequence of a text of letters of the alphabet, given by their indices. -/
theorem indexSequence_map_letterAt {L : CLocale} (hUp : ∀ ch ∈ numAlpha, L.toupper ch = ch)
    {l : List Int} (h : ∀ v ∈ l, 0 ≤ v ∧ v < 33) :
    indexSequence L (l.map letterAt) = l := by
  have hsub : ∀ ch ∈ l.map letterAt, ch ∈ numAlpha := by
    intro ch hch
    obtain ⟨v, hv, rfl⟩ := List.mem_map.mp hch
    exact letterAt_mem (h v hv)
  unfold indexSequence
  rw [map_toupper_of_subset hUp hsub, stripNonAlphabet_of_subset hsub, List.map_map]
  conv_rhs => rw [← List.map_id l]
  apply List.map_congr_left
  intro v hv
  exact alphaIndex_letterAt (h v hv)

theorem map_range_getD {β : Type} (f : Int → β) (l : List Int) :
    (List.range l.length).map (fun i => f (l.getD i 0)) = l.map f := by
  apply List.ext_getElem
  · simp
  · intro i h1 h2
    have hi : i < l.length := by simpa using h1
    simp only [List.getElem_map, List.getElem_range, List.getD_eq_getElem _ _ hi]

/-- The letters of the index sequence of a text are the text in upper case without the
characters outside the alphabet. -/
theorem map_letterAt_indexSequence (L : CLocale) (s : List Char) :
    (indexSequence L s).map letterAt = stripNonAlphabet (s.map L.toupper) := by
  unfold indexSequence
  rw [List.map_map]
  conv_rhs => rw [← List.map_id (stripNonAlphabet (s.map L.toupper))]
  apply List.map_congr_left
  intro ch hch
  have hmem : ch ∈ numAlpha := by
    have := (List.mem_filter.mp hch).2
    simpa using this
  exact letterAt_alphaIndex ch hmem

theorem isEmpty_indexSequence_iff (L : CLocale) (s : List Char) :
    (indexSequence L s).isEmpty = true ↔ ∀ ch ∈ s, L.toupper ch ∉ numAlpha := by
  unfold indexSequence stripNonAlphabet
  rw [List.isEmpty_iff, List.map_eq_nil_iff, List.filter_eq_nil_iff]
  constructor
  · intro h ch hch
    have := h (L.toupper ch) (List.mem_map_of_mem _ hch)
    simpa using this
  · intro h a ha
    obtain ⟨ch, hch, rfl⟩ := List.mem_map.mp ha
    simpa using h ch hch

/-- Deciphering with the rule modulo 33 undoes enciphering with the rule modulo 33. -/
theorem decryptRule_encryptRule {p k : List Int} (hp : ∀ v ∈ p, 0 ≤ v ∧ v < 33)
    (hk : ∀ v ∈ k, 0 ≤ v ∧ v < 33) :
    decryptRule 33
      ((List.range p.length).map fun i => (p.getD i 0 + k.getD (i % k.length) 0) % 33) k
      = p.map letterAt := by
  rw [← map_range_getD letterAt p]
  unfold decryptRule
  rw [List.length_map, List.length_range]
  apply List.map_congr_left
  intro i hi
  have hi2 : i < p.length := List.mem_range.mp hi
  have h1 := getD_range hp i
  have h2 := getD_range hk (i % k.length)
  congr 1
  rw [List.getD_eq_getElem _ _ (by simpa using hi2)]
  simp only [List.getElem_map, List.getElem_range]
  omega

theorem encryptRule_eq_map (p k : List Int) :
    encryptRule 33 p k
      = ((List.range p.length).map fun i =>
          (p.getD i 0 + k.getD (i % k.length) 0) % 33).map letterAt := by
  unfold encryptRule
  rw [List.map_map]
  rfl

end modAlphaCipher

/-! ## Claims on the Gronsfeld cipher -/

namespace modAlphaCipher

/-- C2: in a locale where the letters of the alphabet are alphabetic and are their own
upper case, for every key accepted by the constructor and every text `T` accepted by
`encrypt`, `decrypt (encrypt T)` succeeds and is `T` in upper case without the characters
outside the alphabet (spaces included); it is `T` itself when `T` holds only letters of
the alphabet. -/
theorem decrypt_encrypt (L : CLocale) (skey : List Char) (c : modAlphaCipher)
    (T E : List Char) (hAl : ∀ ch ∈ numAlpha, L.iswalpha ch = true)
    (hUp : ∀ ch ∈ numAlpha, L.toupper ch = ch) (hc : new L skey = .ok c)
    (hE : encrypt L c T = .ok E) :
    decrypt L c E = .ok (stripNonAlphabet (T.map L.toupper)) ∧
    ((∀ ch ∈ T, ch ∈ numAlpha) → decrypt L c E = .ok T) := by
  obtain ⟨_, _, hA, _, _⟩ := new_ok_inv hc
  have hK := key_range_of_new hc
  have hp := indexSequence_range L T
  rw [encrypt_tree hA hK] at hE
  split_ifs at hE with h1 h2 h3
  have hEq : E = encryptRule 33 (indexSequence L T) c.key := (Except.ok.inj hE).symm
  rw [encryptRule_eq_map] at hEq
  have hl : ∀ v ∈ (List.range (indexSequence L T).length).map fun i =>
      ((indexSequence L T).getD i 0 + c.key.getD (i % c.key.length) 0) % 33,
      0 ≤ v ∧ v < 33 := by
    intro v hv
    obtain ⟨j, _, rfl⟩ := List.mem_map.mp hv
    exact ⟨Int.emod_nonneg _ (by decide), Int.emod_lt_of_pos _ (by decide)⟩
  have hEmem : ∀ ch ∈ E, ch ∈ numAlpha := by
    intro ch hch
    rw [hEq] at hch
    obtain ⟨v, hv, rfl⟩ := List.mem_map.mp hch
    exact letterAt_mem (hl v hv)
  have hidx : indexSequence L E = (List.range (indexSequence L T).length).map fun i =>
      ((indexSequence L T).getD i 0 + c.key.getD (i % c.key.length) 0) % 33 := by
    rw [hEq]
    exact indexSequence_map_letterAt hUp hl
  have hmain : decrypt L c E = .ok (stripNonAlphabet (T.map L.toupper)) := by
    rw [decrypt_tree hA hK, hidx]
    have d1 : ¬ E.isEmpty = true := by
      intro e
      rw [List.isEmpty_iff] at e
      rw [e] at hEq
      have := congrArg List.length hEq
      simp only [List.length_nil, List.length_map, List.length_range] at this
      apply h3
      rw [List.isEmpty_iff]
      exact List.length_eq_zero.mp this.symm
    have d2 : ¬ E.any (fun ch => !L.iswalpha ch && ch != ' ') = true :=
      not_any_of_valid (fun ch hch => Or.inl (hAl ch (hEmem ch hch)))
    have d3 : ¬ ((List.range (indexSequence L T).length).map fun i =>
        ((indexSequence L T).getD i 0 + c.key.getD (i % c.key.length) 0) % 33).isEmpty
          = true := by
      intro e
      apply h3
      rw [List.isEmpty_iff] at e ⊢
      have := congrArg List.length e
      simp only [List.length_nil, List.length_map, List.length_range] at this
      exact List.length_eq_zero.mp this
    rw [if_neg d1, if_neg d2, if_neg d3, decryptRule_encryptRule hp hK,
      map_letterAt_indexSequence]
  refine ⟨hmain, fun hsub => ?_⟩
  rw [hmain, map_toupper_of_subset hUp hsub, stripNonAlphabet_of_subset hsub]

/-- C2 (witness): the key "ДОЖДИ" of `testCorrectCases` and the text "Привет мир", in the
sample Russian locale. -/
theorem decrypt_encrypt_witness :
    (∀ ch ∈ numAlpha, ruLocale.iswalpha ch = true) ∧
    (∀ ch ∈ numAlpha, ruLocale.toupper ch = ch) ∧
    new ruLocale keyDozhdi = .ok cipherDozhdi ∧
    encrypt ruLocale cipherDozhdi textMixed
      = .ok ['У', 'Я', 'П', 'Ё', 'Н', 'Ц', 'Ы', 'П', 'Ф'] ∧
    (decrypt ruLocale cipherDozhdi ['У', 'Я', 'П', 'Ё', 'Н', 'Ц', 'Ы', 'П', 'Ф']
        = .ok (stripNonAlphabet (textMixed.map ruLocale.toupper)) ∧
      ((∀ ch ∈ textMixed, ch ∈ numAlpha) →
        decrypt ruLocale cipherDozhdi ['У', 'Я', 'П', 'Ё', 'Н', 'Ц', 'Ы', 'П', 'Ф']
          = .ok textMixed)) :=
  ⟨by decide, by decide, by decide, by decide,
    decrypt_encrypt ruLocale keyDozhdi cipherDozhdi textMixed
      ['У', 'Я', 'П', 'Ё', 'Н', 'Ц', 'Ы', 'П', 'Ф']
      (by decide) (by decide) (by decide) (by decide)⟩

/-- C7 (counterexample): with the key "Б" (numeric key 1) the text "Ю" (index 31) is
encrypted to "Я" (index 32), whereas the rule modulo 32 gives "А" (index 0). -/
theorem encrypt_not_mod32 :
    new ruLocale ['Б'] = .ok cipherB ∧ indexSequence ruLocale ['Ю'] = [31] ∧
    encrypt ruLocale cipherB ['Ю'] = .ok ['Я'] ∧
    encryptRule 32 (indexSequence ruLocale ['Ю']) cipherB.key = ['А'] ∧
    encrypt ruLocale cipherB ['Ю']
      ≠ .ok (encryptRule 32 (indexSequence ruLocale ['Ю']) cipherB.key) := by
  decide

/-- C7 (amended): for every constructed cipher with numeric key `k` of length `m`, and
every accepted text with index sequence `p` of length `n`, `encrypt` returns the
`n`-letter text whose `i`-th letter has index `(p[i] + k[i mod m]) mod 33`: the modulus
is the size 33 of the alphabet. -/
theorem encrypt_rule (L : CLocale) (skey : List Char) (c : modAlphaCipher) (T : List Char)
    (hc : new L skey = .ok c) (hne : T ≠ [])
    (hval : ∀ ch ∈ T, L.iswalpha ch = true ∨ ch = ' ') (hlet : indexSequence L T ≠ []) :
    encrypt L c T = .ok (encryptRule 33 (indexSequence L T) c.key) ∧
    (encryptRule 33 (indexSequence L T) c.key).length = (indexSequence L T).length := by
  obtain ⟨_, _, hA, _, _⟩ := new_ok_inv hc
  have hK := key_range_of_new hc
  refine ⟨?_, by simp [encryptRule]⟩
  rw [encrypt_tree hA hK, if_neg (fun e => hne (List.isEmpty_iff.mp e)),
    if_neg (not_any_of_valid hval), if_neg (fun e => hlet (List.isEmpty_iff.mp e))]

/-- C7 (witness): the rule modulo 33 at the key "ДОЖДИ" and the text "Привет мир". -/
theorem encrypt_rule_witness :
    new ruLocale keyDozhdi = .ok cipherDozhdi ∧ textMixed ≠ [] ∧
    (∀ ch ∈ textMixed, ruLocale.iswalpha ch = true ∨ ch = ' ') ∧
    indexSequence ruLocale textMixed ≠ [] ∧
    (encrypt ruLocale cipherDozhdi textMixed
        = .ok (encryptRule 33 (indexSequence ruLocale textMixed) cipherDozhdi.key) ∧
      (encryptRule 33 (indexSequence ruLocale textMixed) cipherDozhdi.key).length
        = (indexSequence ruLocale textMixed).length) :=
  ⟨by decide, by decide, by decide, by decide,
    encrypt_rule ruLocale keyDozhdi cipherDozhdi textMixed
      (by decide) (by decide) (by decide) (by decide)⟩

/-- C8 (counterexample): with the key "Б" (numeric key 1) the cipher text "А" (index 0)
is decrypted to "Я" (index 32), whereas the rule with 32 gives "Ю" (index 31). -/
theorem decrypt_not_mod32 :
    new ruLocale ['Б'] = .ok cipherB ∧ indexSequence ruLocale ['А'] = [0] ∧
    decrypt ruLocale cipherB ['А'] = .ok ['Я'] ∧
    decryptRule 32 (indexSequence ruLocale ['А']) cipherB.key = ['Ю'] ∧
    decrypt ruLocale cipherB ['А']
      ≠ .ok (decryptRule 32 (indexSequence ruLocale ['А']) cipherB.key) := by
  decide

/-- C8 (amended): for every constructed cipher with numeric key `k` of length `m`, and
every accepted cipher text with index sequence `q` of length `n`, `decrypt` returns the
`n`-letter text whose `i`-th letter has index `(q[i] + 33 - k[i mod m]) mod 33`: the
modulus is the size 33 of the alphabet. -/
theorem decrypt_rule (L : CLocale) (skey : List Char) (c : modAlphaCipher) (X : List Char)
    (hc : new L skey = .ok c) (hne : X ≠ [])
    (hval : ∀ ch ∈ X, L.iswalpha ch = true ∨ ch = ' ') (hlet : indexSequence L X ≠ []) :
    decrypt L c X = .ok (decryptRule 33 (indexSequence L X) c.key) ∧
    (decryptRule 33 (indexSequence L X) c.key).length = (indexSequence L X).length := by
  obtain ⟨_, _, hA, _, _⟩ := new_ok_inv hc
  have hK := key_range_of_new hc
  refine ⟨?_, by simp [decryptRule]⟩
  rw [decrypt_tree hA hK, if_neg (fun e => hne (List.isEmpty_iff.mp e)),
    if_neg (not_any_of_valid hval), if_neg (fun e => hlet (List.isEmpty_iff.mp e))]

/-- C8 (witness): the rule modulo 33 at the key "ДОЖДИ" and the cipher text
"ЦЧУУФЕТИД" of the first test of `testCorrectCases`. -/
theorem decrypt_rule_witness :
    new ruLocale keyDozhdi = .ok cipherDozhdi ∧
    ['Ц', 'Ч', 'У', 'У', 'Ф', 'Е', 'Т', 'И', 'Д'] ≠ [] ∧
    (∀ ch ∈ ['Ц', 'Ч', 'У', 'У', 'Ф', 'Е', 'Т', 'И', 'Д'],
      ruLocale.iswalpha ch = true ∨ ch = ' ') ∧
    indexSequence ruLocale ['Ц', 'Ч', 'У', 'У', 'Ф', 'Е', 'Т', 'И', 'Д'] ≠ [] ∧
    (decrypt ruLocale cipherDozhdi ['Ц', 'Ч', 'У', 'У', 'Ф', 'Е', 'Т', 'И', 'Д']
        = .ok (decryptRule 33
            (indexSequence ruLocale ['Ц', 'Ч', 'У', 'У', 'Ф', 'Е', 'Т', 'И', 'Д'])
            cipherDozhdi.key) ∧
      (decryptRule 33 (indexSequence ruLocale ['Ц', 'Ч', 'У', 'У', 'Ф', 'Е', 'Т', 'И', 'Д'])
          cipherDozhdi.key).length
        = (indexSequence ruLocale ['Ц', 'Ч', 'У', 'У', 'Ф', 'Е', 'Т', 'И', 'Д']).length) :=
  ⟨by decide, by decide, by decide, by decide,
    decrypt_rule ruLocale keyDozhdi cipherDozhdi ['Ц', 'Ч', 'У', 'У', 'Ф', 'Е', 'Т', 'И', 'Д']
      (by decide) (by decide) (by decide) (by decide)⟩

end modAlphaCipher

namespace modAlphaCipher

theorem any_invalid_iff (L : CLocale) (T : List Char) :
    T.any (fun ch => !L.iswalpha ch && ch != ' ') = true
      ↔ ∃ ch ∈ T, L.iswalpha ch = false ∧ ch ≠ ' ' := by
  rw [List.any_eq_true]
  constructor
  · rintro ⟨ch, hch, h⟩
    exact ⟨ch, hch, by simpa using h⟩
  · rintro ⟨ch, hch, h⟩
    exact ⟨ch, hch, by simpa using h⟩

/-- C9: for every key string `s` the constructor fails with `emptyKey` if `s` is empty;
otherwise with `invalidKeyCharacter` if some character of `s` is not alphabetic; otherwise
with `keyHasNoValidLetters` if no character of the upper-cased `s` is in the alphabet (so
for the all-Latin key "KEY"); and otherwise succeeds, the key being the alphabet indices
of the in-alphabet characters of the upper-cased `s`, in order. The keys "" and "KEY123"
fail as the specification says. -/
theorem new_cases (L : CLocale) (s : List Char) :
    new L s =
      (if s = [] then .error .emptyKey
      else if ∃ ch ∈ s, L.iswalpha ch = false then .error .invalidKeyCharacter
      else if ∀ ch ∈ s, L.toupper ch ∉ numAlpha then .error .keyHasNoValidLetters
      else .ok { alphaNum := initAlphaNum, key := indexSequence L s }) ∧
    new L [] = .error .emptyKey ∧
    new ruLocale ['K', 'E', 'Y', '1', '2', '3'] = .error .invalidKeyCharacter ∧
    new ruLocale ['K', 'E', 'Y'] = .error .keyHasNoValidLetters := by
  refine ⟨?_, rfl, by decide, by decide⟩
  have hw : convert initAlphaNum (toUpper L s) = indexSequence L s := by
    rw [convert_initAlphaNum]; rfl
  dsimp only [new]
  rw [hw]
  by_cases h1 : s = []
  · subst h1
    rfl
  · have e1 : ¬ s.isEmpty = true := fun e => h1 (List.isEmpty_iff.mp e)
    rw [if_neg h1, if_neg e1]
    by_cases h2 : ∃ ch ∈ s, L.iswalpha ch = false
    · have e2 : s.any (fun c => !L.iswalpha c) = true := by
        obtain ⟨ch, hch, h⟩ := h2
        exact List.any_eq_true.mpr ⟨ch, hch, by simp [h]⟩
      rw [if_pos h2, if_pos e2]
    · have e2 : ¬ s.any (fun c => !L.iswalpha c) = true := by
        intro e
        obtain ⟨ch, hch, h⟩ := List.any_eq_true.mp e
        exact h2 ⟨ch, hch, by simpa using h⟩
      rw [if_neg h2, if_neg e2]
      by_cases h3 : ∀ ch ∈ s, L.toupper ch ∉ numAlpha
      · rw [if_pos h3, if_pos ((isEmpty_indexSequence_iff L s).mpr h3)]
      · rw [if_neg h3, if_neg (fun e => h3 ((isEmpty_indexSequence_iff L s).mp e))]

/-- C10: for every constructed cipher and every text `T`, `encrypt` fails with
`emptyText` if `T` is empty; otherwise with `invalidTextCharacter` if some character of
`T` is neither alphabetic nor a space; otherwise with `textHasNoValidLetters` if no
character of the upper-cased `T` is in the alphabet; and succeeds in every remaining
case. -/
theorem encrypt_cases (L : CLocale) (skey : List Char) (c : modAlphaCipher) (T : List Char)
    (hc : new L skey = .ok c) :
    encrypt L c T =
      if T = [] then .error .emptyText
      else if ∃ ch ∈ T, L.iswalpha ch = false ∧ ch ≠ ' ' then .error .invalidTextCharacter
      else if ∀ ch ∈ T, L.toupper ch ∉ numAlpha then .error .textHasNoValidLetters
      else .ok (encryptRule 33 (indexSequence L T) c.key) := by
  obtain ⟨_, _, hA, _, _⟩ := new_ok_inv hc
  have hK := key_range_of_new hc
  rw [encrypt_tree hA hK]
  by_cases h1 : T = []
  · subst h1
    rfl
  · have e1 : ¬ T.isEmpty = true := fun e => h1 (List.isEmpty_iff.mp e)
    rw [if_neg h1, if_neg e1]
    by_cases h2 : ∃ ch ∈ T, L.iswalpha ch = false ∧ ch ≠ ' '
    · rw [if_pos h2, if_pos ((any_invalid_iff L T).mpr h2)]
    · rw [if_neg h2, if_neg (fun e => h2 ((any_invalid_iff L T).mp e))]
      by_cases h3 : ∀ ch ∈ T, L.toupper ch ∉ numAlpha
      · rw [if_pos h3, if_pos ((isEmpty_indexSequence_iff L T).mpr h3)]
      · rw [if_neg h3, if_neg (fun e => h3 ((isEmpty_indexSequence_iff L T).mp e))]

/-- C10 (witness): with the key "ДОЖДИ", the Latin text "TEXT" of `testErrorCases` has no
letter of the alphabet, and the text "ТИМПЛБДВА" is encrypted. -/
theorem encrypt_cases_witness :
    new ruLocale keyDozhdi = .ok cipherDozhdi ∧
    encrypt ruLocale cipherDozhdi ['T', 'E', 'X', 'T'] = .error .textHasNoValidLetters ∧
    encrypt ruLocale cipherDozhdi textTimp =
      (if textTimp = [] then .error .emptyText
      else if ∃ ch ∈ textTimp, ruLocale.iswalpha ch = false ∧ ch ≠ ' ' then
        .error .invalidTextCharacter
      else if ∀ ch ∈ textTimp, ruLocale.toupper ch ∉ numAlpha then
        .error .textHasNoValidLetters
      else .ok (encryptRule 33 (indexSequence ruLocale textTimp) cipherDozhdi.key)) :=
  ⟨by decide, by decide,
    encrypt_cases ruLocale keyDozhdi cipherDozhdi textTimp (by decide)⟩

end modAlphaCipher

/-! ## Construction and validation of the table cipher -/

namespace TableCipher

theorem rowCount_mul_lt {n C : Nat} (hC : 0 < C) : rowCount n C * C < n + C := by
  have hdm : C * (n / C) + n % C = n := Nat.div_add_mod n C
  have hm : n % C < C := Nat.mod_lt n hC
  have hcomm : C * (n / C) = n / C * C := Nat.mul_comm _ _
  rcases rowCount_cases (n := n) hC with ⟨h0, hR, _⟩ | ⟨h0, hR, _⟩
  · rw [hR]; omega
  · rw [hR, Nat.add_mul]; omega

/-- The quotient `(textLength + numColumns - 1) / numColumns` of the code is the ceiling
of `textLength / numColumns`. -/
theorem ceilRows_eq_rowCount (n C : Nat) (hC : 0 < C) :
    ceilRows n (C : Int) = (rowCount n C : Int) := by
  unfold ceilRows
  rw [Int.ceil_eq_iff]
  have hCq : (0 : ℚ) < (C : ℚ) := by exact_mod_cast hC
  have h1 : n ≤ rowCount n C * C := le_rowCount_mul hC
  have h2 : rowCount n C * C < n + C := rowCount_mul_lt hC
  have h1q : (n : ℚ) ≤ (rowCount n C : ℚ) * (C : ℚ) := by exact_mod_cast h1
  have h2q : (rowCount n C : ℚ) * (C : ℚ) < (n : ℚ) + (C : ℚ) := by exact_mod_cast h2
  simp only [Int.cast_natCast]
  constructor
  · rw [lt_div_iff₀ hCq]
    linarith
  · rw [div_le_iff₀ hCq]
    exact h1q

theorem any_invalid_iff_table (L : CLocale) (T : List Char) :
    T.any (fun ch => !L.iswalpha ch && ch != ' ') = true
      ↔ ∃ ch ∈ T, L.iswalpha ch = false ∧ ch ≠ ' ' := by
  rw [List.any_eq_true]
  constructor
  · rintro ⟨ch, hch, h⟩
    exact ⟨ch, hch, by simpa using h⟩
  · rintro ⟨ch, hch, h⟩
    exact ⟨ch, hch, by simpa using h⟩

/-- C11: for every integer `k`, constructing `TableCipher(k)` fails with `invalidKey`
exactly when `k <= 0`, fails with `keyTooLarge` exactly when `k > 1000`, and otherwise
succeeds with `numColumns = k`; so `TableCipher(-5)` and `TableCipher(1001)` fail with
these two kinds. -/
theorem table_new_cases (k : Int) :
    (new k = .error .invalidKey ↔ k ≤ 0) ∧
    (new k = .error .keyTooLarge ↔ k > 1000) ∧
    (new k = .ok { numColumns := k } ↔ (1 ≤ k ∧ k ≤ 1000)) ∧
    ((∃ c, new k = .ok c) ↔ (1 ≤ k ∧ k ≤ 1000)) ∧
    new (-5) = .error .invalidKey ∧ new 1001 = .error .keyTooLarge := by
  refine ⟨?_, ?_, ?_, ?_, by decide, by decide⟩
  · unfold new validateKey
    by_cases h1 : k ≤ 0
    · simp [h1]
    · by_cases h2 : k > 1000
      · simp [h1, h2]
      · simp [h1, h2]
  · unfold new validateKey
    by_cases h1 : k ≤ 0
    · have h2 : ¬ k > 1000 := by omega
      simp [h1, h2]
    · by_cases h2 : k > 1000
      · simp [h1, h2]
      · simp [h1, h2]
  · rw [new_ok_iff]
    constructor
    · rintro ⟨h1, h2, _⟩
      exact ⟨h1, h2⟩
    · rintro ⟨h1, h2⟩
      exact ⟨h1, h2, rfl⟩
  · constructor
    · rintro ⟨c, hc⟩
      obtain ⟨h1, h2, _⟩ := new_ok_iff.mp hc
      exact ⟨h1, h2⟩
    · rintro ⟨h1, h2⟩
      exact ⟨_, new_ok_iff.mpr ⟨h1, h2, rfl⟩⟩

/-- C12: for every constructed cipher `TableCipher(k)` and every text `T`, `encrypt` fails
with `emptyText` if `T` is empty; otherwise with `invalidTextCharacter` if some character
is neither alphabetic nor a space; otherwise with `keyExceedsTextLength` if `k` exceeds the
length of `T`; otherwise with `tableTooLarge` if `ceil(length(T) / k) > 10000`; and succeeds
in every remaining case. `TableCipher(10).encrypt("ПРИВЕТ")` fails with
`keyExceedsTextLength`. -/
theorem table_encrypt_cases (L : CLocale) (k : Int) (c : TableCipher) (T : List Char)
    (hc : new k = .ok c) :
    encrypt L c T =
      (if T = [] then .error .emptyText
      else if ∃ ch ∈ T, L.iswalpha ch = false ∧ ch ≠ ' ' then .error .invalidTextCharacter
      else if k > (T.length : Int) then .error .keyExceedsTextLength
      else if ceilRows T.length k > 10000 then .error .tableTooLarge
      else .ok (((colMajor (rowCount T.length k.toNat) k.toNat).map
        (gridCell T k.toNat)).filter fun ch => decide (ch ≠ ' '))) ∧
    encrypt ruLocale { numColumns := 10 } ['П', 'Р', 'И', 'В', 'Е', 'Т']
      = .error .keyExceedsTextLength := by
  refine ⟨?_, by decide⟩
  obtain ⟨C, hC, hC2, rfl, rfl⟩ := exists_nat_of_new hc
  rw [encrypt_eq L C hC, ceilRows_eq_rowCount T.length C hC, Int.toNat_natCast,
    encryptRead_encryptWrite]
  by_cases h1 : T = []
  · subst h1
    rfl
  · have e1 : ¬ T.isEmpty = true := fun e => h1 (List.isEmpty_iff.mp e)
    rw [if_neg h1, if_neg e1]
    by_cases h2 : ∃ ch ∈ T, L.iswalpha ch = false ∧ ch ≠ ' '
    · rw [if_pos h2, if_pos ((any_invalid_iff_table L T).mpr h2)]
    · rw [if_neg h2, if_neg (fun e => h2 ((any_invalid_iff_table L T).mp e))]
      by_cases h3 : C > T.length
      · have e3 : (C : Int) > (T.length : Int) := by omega
        rw [if_pos h3, if_pos e3]
      · have e3 : ¬ (C : Int) > (T.length : Int) := by omega
        rw [if_neg h3, if_neg e3]
        by_cases h4 : rowCount T.length C > 10000
        · have e4 : (rowCount T.length C : Int) > 10000 := by omega
          rw [if_pos (Or.inl h4), if_pos e4]
        · have e4 : ¬ (rowCount T.length C : Int) > 10000 := by omega
          rw [if_neg (by omega), if_neg e4]

/-- C12 (witness): the four failures and the success at 3 columns. -/
theorem table_encrypt_cases_witness :
    new 3 = .ok { numColumns := 3 } ∧
    encrypt ruLocale { numColumns := 3 } [] = .error .emptyText ∧
    encrypt ruLocale { numColumns := 3 } ['А', '1', 'Б'] = .error .invalidTextCharacter ∧
    encrypt ruLocale { numColumns := 3 } ['А', 'Б'] = .error .keyExceedsTextLength ∧
    encrypt ruLocale { numColumns := 3 } textPrivetMir = .ok textRouteCipher ∧
    (encrypt ruLocale { numColumns := 3 } textPrivetMir =
      (if textPrivetMir = [] then .error .emptyText
      else if ∃ ch ∈ textPrivetMir, ruLocale.iswalpha ch = false ∧ ch ≠ ' ' then
        .error .invalidTextCharacter
      else if (3 : Int) > (textPrivetMir.length : Int) then .error .keyExceedsTextLength
      else if ceilRows textPrivetMir.length 3 > 10000 then .error .tableTooLarge
      else .ok (((colMajor (rowCount textPrivetMir.length (3 : Int).toNat) (3 : Int).toNat).map
        (gridCell textPrivetMir (3 : Int).toNat)).filter fun ch => decide (ch ≠ ' '))) ∧
    encrypt ruLocale { numColumns := 10 } ['П', 'Р', 'И', 'В', 'Е', 'Т']
      = .error .keyExceedsTextLength) :=
  ⟨by decide, by decide, by decide, by decide, by decide,
    table_encrypt_cases ruLocale 3 { numColumns := 3 } textPrivetMir (by decide)⟩

end TableCipher

namespace TableCipher

/-- The two loops of `decrypt` return a text of equal letters unchanged. -/
theorem decrypt_loops_replicate {a : Char} (ha : a ≠ ' ') (n : Nat) {C : Nat} (hC : 0 < C) :
    decryptRead (decryptWrite (List.replicate n a) (rowCount n C) C (lastRow n C)
      (Table.blank (rowCount n C) C)).1 (rowCount n C) C = List.replicate n a := by
  have hsp : ' ' ∉ List.replicate n a := by
    intro h
    exact ha (List.eq_of_mem_replicate h).symm
  have hE : List.replicate n a
      = (decryptCells (rowCount (List.replicate n a).length C) C
          (lastRow (List.replicate n a).length C)).map (gridCell (List.replicate n a) C) := by
    rw [List.length_replicate]
    symm
    rw [List.eq_replicate_iff]
    refine ⟨by rw [List.length_map, length_decryptCells hC], ?_⟩
    intro b hb
    obtain ⟨p, hp, rfl⟩ := List.mem_map.mp hb
    rw [decryptCells_eq_filter hC, List.mem_filter] at hp
    have hlt : p.1 * C + p.2 < n := by simpa using hp.2
    unfold gridCell
    rw [List.getD_eq_getElem _ _ (by simpa using hlt), List.getElem_replicate]
  have h := (decrypt_encrypt_core hsp hC (List.replicate n a) hE).2
  rw [List.length_replicate] at h
  exact h

/-- C13 (failing input): with 1 column, a text of 10001 letters gives more than 10000
rows; `encrypt` rejects it with `tableTooLarge`, whereas `decrypt`, which has no size
check, accepts it and returns it. -/
theorem decrypt_accepts_oversized :
    new 1 = .ok { numColumns := 1 } ∧ ceilRows textOversized.length 1 > 10000 ∧
    encrypt ruLocale { numColumns := 1 } textOversized = .error .tableTooLarge ∧
    decrypt ruLocale { numColumns := 1 } textOversized = .ok textOversized := by
  have hlen : textOversized.length = 10001 := List.length_replicate _ _
  have hemp : ¬ textOversized.isEmpty = true := by
    intro e
    rw [List.isEmpty_iff] at e
    rw [e] at hlen
    cases hlen
  have hany : ¬ textOversized.any (fun ch => !ruLocale.iswalpha ch && ch != ' ') = true := by
    intro e
    obtain ⟨ch, hch, hbad⟩ := List.any_eq_true.mp e
    have hA : ch = 'А' := List.eq_of_mem_replicate hch
    subst hA
    revert hbad
    decide
  have hrows : rowCount 10001 1 = 10001 := by decide
  refine ⟨by decide, ?_, ?_, ?_⟩
  · have h := ceilRows_eq_rowCount 10001 1 (by decide)
    rw [hrows] at h
    rw [hlen]
    have h2 : ceilRows 10001 1 = 10001 := by exact_mod_cast h
    rw [h2]
    decide
  · have h := encrypt_eq ruLocale 1 (by decide) textOversized
    rw [if_neg hemp, if_neg hany, hlen, if_neg (by decide), hrows,
      if_pos (Or.inl (by decide))] at h
    exact h
  · have h := decrypt_eq ruLocale 1 (by decide) textOversized
    rw [if_neg hemp, if_neg hany, hlen, if_neg (by decide)] at h
    have h3 : decryptRead (decryptWrite textOversized (rowCount 10001 1) 1 (lastRow 10001 1)
        (Table.blank (rowCount 10001 1) 1)).1 (rowCount 10001 1) 1 = textOversized :=
      decrypt_loops_replicate (by decide) 10001 (by decide)
    rw [h3] at h
    exact h

end TableCipher

/-! ## Invariants of the Gronsfeld cipher -/

namespace modAlphaCipher

theorem find_getD_initAlphaNum :
    ∀ i ∈ List.range 33, initAlphaNum.find (numAlpha.getD i ' ') = some (i : Int) := by
  decide

theorem nodup_numAlpha : numAlpha.Nodup := by decide

/-- The construction succeeds on a non-empty key of letters with a letter of the
alphabet. -/
theorem new_eq_ok {L : CLocale} {s : List Char} (h1 : s ≠ [])
    (h2 : ∀ ch ∈ s, L.iswalpha ch = true) (h3 : indexSequence L s ≠ []) :
    new L s = .ok { alphaNum := initAlphaNum, key := indexSequence L s } := by
  have hw : convert initAlphaNum (toUpper L s) = indexSequence L s := by
    rw [convert_initAlphaNum]; rfl
  have e1 : ¬ s.isEmpty = true := fun e => h1 (List.isEmpty_iff.mp e)
  have e2 : ¬ s.any (fun c => !L.iswalpha c) = true := by
    intro e
    obtain ⟨ch, hch, h⟩ := List.any_eq_true.mp e
    simp [h2 ch hch] at h
  have e3 : ¬ (indexSequence L s).isEmpty = true := fun e => h3 (List.isEmpty_iff.mp e)
  dsimp only [new]
  rw [hw, if_neg e1, if_neg e2, if_neg e3]

/-- C14 (counterexample): the key "Я" is accepted and its numeric key holds 32, which is
outside [0,31]. -/
theorem key_holds_32 :
    new ruLocale ['Я'] = .ok cipherYa ∧ (32 : Int) ∈ cipherYa.key ∧
    ¬ ((0 : Int) ≤ 32 ∧ (32 : Int) ≤ 31) := by
  decide

/-- C14 (amended): after every successful construction the stored numeric key is not
empty and every element of it lies in [0,32]. -/
theorem key_invariant (L : CLocale) (skey : List Char) (c : modAlphaCipher)
    (hc : new L skey = .ok c) :
    c.key ≠ [] ∧ ∀ v ∈ c.key, 0 ≤ v ∧ v ≤ 32 := by
  obtain ⟨_, _, _, _, hne⟩ := new_ok_inv hc
  refine ⟨hne, fun v hv => ?_⟩
  have := key_range_of_new hc v hv
  omega

/-- C14 (witness): the numeric key of "ДОЖДИ". -/
theorem key_invariant_witness :
    new ruLocale keyDozhdi = .ok cipherDozhdi ∧
    (cipherDozhdi.key ≠ [] ∧ ∀ v ∈ cipherDozhdi.key, 0 ≤ v ∧ v ≤ 32) :=
  ⟨by decide, key_invariant ruLocale keyDozhdi cipherDozhdi (by decide)⟩

/-- C15: for every constructed cipher and every text, neither `encrypt` nor `decrypt` fails
with `indexOutOfRange`; on every work vector and from every position the two loops pass
their range check, and the index-to-letter conversion accepts what they return. -/
theorem no_indexOutOfRange (L : CLocale) (skey : List Char) (c : modAlphaCipher)
    (T : List Char) (work : List Int) (i : Nat) (hc : new L skey = .ok c) :
    encrypt L c T ≠ .error .indexOutOfRange ∧ decrypt L c T ≠ .error .indexOutOfRange ∧
    (∃ r, encryptLoop c i work = .ok r ∧ ∃ s, convertVec r = .ok s) ∧
    (∃ r, decryptLoop c i work = .ok r ∧ ∃ s, convertVec r = .ok s) := by
  obtain ⟨_, _, hA, _, _⟩ := new_ok_inv hc
  have hK := key_range_of_new hc
  refine ⟨?_, ?_, ?_, ?_⟩
  · rw [encrypt_tree hA hK]
    split_ifs <;> intro h <;> cases h
  · rw [decrypt_tree hA hK]
    split_ifs <;> intro h <;> cases h
  · refine ⟨_, encryptLoop_eq c hA work i, _, convertVec_ok _ ?_⟩
    intro v hv
    obtain ⟨j, _, rfl⟩ := List.mem_map.mp hv
    exact ⟨Int.emod_nonneg _ (by decide), Int.emod_lt_of_pos _ (by decide)⟩
  · refine ⟨_, decryptLoop_eq c hA work i, _, convertVec_ok _ ?_⟩
    intro v hv
    obtain ⟨j, _, rfl⟩ := List.mem_map.mp hv
    exact ⟨Int.emod_nonneg _ (by decide), Int.emod_lt_of_pos _ (by decide)⟩

/-- C15 (witness): the cipher of "ДОЖДИ", the text "Привет мир" and a work vector with
entries far outside the alphabet. -/
theorem no_indexOutOfRange_witness :
    new ruLocale keyDozhdi = .ok cipherDozhdi ∧
    (encrypt ruLocale cipherDozhdi textMixed ≠ .error .indexOutOfRange ∧
      decrypt ruLocale cipherDozhdi textMixed ≠ .error .indexOutOfRange ∧
      (∃ r, encryptLoop cipherDozhdi 7 [-5, 1000, 32] = .ok r ∧ ∃ s, convertVec r = .ok s) ∧
      (∃ r, decryptLoop cipherDozhdi 7 [-5, 1000, 32] = .ok r ∧ ∃ s, convertVec r = .ok s)) :=
  ⟨by decide,
    no_indexOutOfRange ruLocale keyDozhdi cipherDozhdi textMixed [-5, 1000, 32] 7 (by decide)⟩

/-- C16 (counterexample): the alphabet does not have 32 letters, and the letter "Я" has
index 32, outside 0..31. -/
theorem alphabet_not_32 :
    numAlpha.length ≠ 32 ∧ alphaIndex 'Я' = 32 ∧ initAlphaNum.find 'Я' = some 32 := by
  decide

/-- C16 (amended): the alphabet used for indexing has exactly 33 letters (it holds "Ё"),
the table built by the constructor has 33 entries, and the letter indices are exactly the
numbers 0..32. -/
theorem alphabet_size :
    numAlpha.length = 33 ∧ initAlphaNum.length = 33 ∧ 'Ё' ∈ numAlpha ∧
    (∀ ch ∈ numAlpha, 0 ≤ alphaIndex ch ∧ alphaIndex ch ≤ 32) ∧
    (∀ i ∈ List.range 33, letterAt (i : Int) ∈ numAlpha ∧
      alphaIndex (letterAt (i : Int)) = (i : Int)) := by
  decide

/-- C17: the table built by the constructor is a bijection with the alphabet: the letter
at every position `i` of `numAlpha` is mapped to `i`, every character with an entry `v` is
the letter at position `v`, the alphabet has no repeated letter, and the table has one
entry per letter. -/
theorem alphaNum_bijection (L : CLocale) (skey : List Char) (c : modAlphaCipher)
    (hc : new L skey = .ok c) :
    (∀ i : Nat, i < numAlpha.length →
      c.alphaNum.find (numAlpha.getD i ' ') = some (i : Int)) ∧
    (∀ (ch : Char) (v : Int), c.alphaNum.find ch = some v →
      ch ∈ numAlpha ∧ 0 ≤ v ∧ v.toNat < numAlpha.length ∧ numAlpha.getD v.toNat ' ' = ch) ∧
    numAlpha.Nodup ∧ c.alphaNum.length = numAlpha.length ∧
    c.alphaNum.map Prod.fst = numAlpha := by
  obtain ⟨_, _, hA, _, _⟩ := new_ok_inv hc
  rw [hA]
  refine ⟨?_, ?_, nodup_numAlpha, by rw [length_initAlphaNum, length_numAlpha],
    keys_initAlphaNum⟩
  · intro i hi
    rw [length_numAlpha] at hi
    exact find_getD_initAlphaNum i (List.mem_range.mpr hi)
  · intro ch v hv
    rw [find_initAlphaNum] at hv
    by_cases hm : ch ∈ numAlpha
    · rw [if_pos hm] at hv
      have hv2 : alphaIndex ch = v := Option.some.inj hv
      have hr := alphaIndex_range ch hm
      have hl := letterAt_alphaIndex ch hm
      rw [hv2] at hr hl
      refine ⟨hm, hr.1, ?_, hl⟩
      rw [length_numAlpha]
      omega
    · rw [if_neg hm] at hv
      cases hv

/-- C17 (witness): the table of the cipher of "ДОЖДИ". -/
theorem alphaNum_bijection_witness :
    new ruLocale keyDozhdi = .ok cipherDozhdi ∧
    ((∀ i : Nat, i < numAlpha.length →
      cipherDozhdi.alphaNum.find (numAlpha.getD i ' ') = some (i : Int)) ∧
    (∀ (ch : Char) (v : Int), cipherDozhdi.alphaNum.find ch = some v →
      ch ∈ numAlpha ∧ 0 ≤ v ∧ v.toNat < numAlpha.length ∧ numAlpha.getD v.toNat ' ' = ch) ∧
    numAlpha.Nodup ∧ cipherDozhdi.alphaNum.length = numAlpha.length ∧
    cipherDozhdi.alphaNum.map Prod.fst = numAlpha) :=
  ⟨by decide, alphaNum_bijection ruLocale keyDozhdi cipherDozhdi (by decide)⟩

end modAlphaCipher

/-! ## Lengths, the cyclic key and the validation of `decrypt` -/

namespace modAlphaCipher

theorem length_indexSequence_le (L : CLocale) (s : List Char) :
    (indexSequence L s).length ≤ s.length := by
  unfold indexSequence stripNonAlphabet
  rw [List.length_map]
  have h := List.length_filter_le (fun ch => decide (ch ∈ numAlpha)) (s.map L.toupper)
  rw [List.length_map] at h
  exact h

theorem indexSequence_append (L : CLocale) (a b : List Char) :
    indexSequence L (a ++ b) = indexSequence L a ++ indexSequence L b := by
  simp [indexSequence, stripNonAlphabet]

/-- Reading a key written twice at `i` modulo its length is reading the key at `i` modulo
its length. -/
theorem getD_append_self (k : List Int) (i : Nat) :
    (k ++ k).getD (i % (k ++ k).length) 0 = k.getD (i % k.length) 0 := by
  rw [List.length_append]
  by_cases hm : k.length = 0
  · have hk : k = [] := List.length_eq_zero.mp hm
    subst hk
    rfl
  · have hpos : 0 < k.length := Nat.pos_of_ne_zero hm
    have hr : i % (k.length + k.length) < k.length + k.length :=
      Nat.mod_lt _ (by omega)
    have hdvd : k.length ∣ k.length + k.length := ⟨2, by omega⟩
    have hmod : i % (k.length + k.length) % k.length = i % k.length :=
      Nat.mod_mod_of_dvd i hdvd
    generalize i % (k.length + k.length) = r at hr hmod ⊢
    rw [← hmod]
    by_cases hlt : r < k.length
    · rw [List.getD_append _ _ _ _ hlt, Nat.mod_eq_of_lt hlt]
    · have hge : k.length ≤ r := by omega
      rw [List.getD_append_right _ _ _ _ hge, Nat.mod_eq_sub_mod hge,
        Nat.mod_eq_of_lt (by omega)]

theorem encryptRule_append_self (p k : List Int) :
    encryptRule 33 p (k ++ k) = encryptRule 33 p k := by
  unfold encryptRule
  apply List.map_congr_left
  intro i _
  rw [getD_append_self]

theorem decryptRule_append_self (q k : List Int) :
    decryptRule 33 q (k ++ k) = decryptRule 33 q k := by
  unfold decryptRule
  apply List.map_congr_left
  intro i _
  rw [getD_append_self]

/-- C18: for every constructed cipher and every text `T` accepted by `encrypt`, the length
of `encrypt(T)` is at most the length of `T`. -/
theorem alpha_encrypt_length_le (L : CLocale) (skey : List Char) (c : modAlphaCipher)
    (T E : List Char) (hc : new L skey = .ok c) (hE : encrypt L c T = .ok E) :
    E.length ≤ T.length := by
  obtain ⟨_, _, hA, _, _⟩ := new_ok_inv hc
  have hK := key_range_of_new hc
  rw [encrypt_tree hA hK] at hE
  split_ifs at hE
  have hEq : E = encryptRule 33 (indexSequence L T) c.key := (Except.ok.inj hE).symm
  rw [hEq, encryptRule, List.length_map, List.length_range]
  exact length_indexSequence_le L T

/-- C18 (witness): "Привет мир" (10 characters) is encrypted with the key "ДОЖДИ" to a
text of 9 letters. -/
theorem alpha_encrypt_length_le_witness :
    new ruLocale keyDozhdi = .ok cipherDozhdi ∧
    encrypt ruLocale cipherDozhdi textMixed
      = .ok ['У', 'Я', 'П', 'Ё', 'Н', 'Ц', 'Ы', 'П', 'Ф'] ∧
    ['У', 'Я', 'П', 'Ё', 'Н', 'Ц', 'Ы', 'П', 'Ф'].length ≤ textMixed.length :=
  ⟨by decide, by decide,
    alpha_encrypt_length_le ruLocale keyDozhdi cipherDozhdi textMixed
      ['У', 'Я', 'П', 'Ё', 'Н', 'Ц', 'Ы', 'П', 'Ф'] (by decide) (by decide)⟩

/-- C19: the key is applied cyclically. For every key string `K` accepted by the
constructor, with numeric key `k` of length `m`: on every text, `encrypt` adds to the
`i`-th index of the text the key element `k[i mod m]` (modulo 33) and `decrypt` subtracts
it, so the key element used at position `i + m` is the one used at position `i`; `K`
written twice is accepted as well, its numeric key is `k` written twice, whose element at
`i mod 2m` is `k[i mod m]`; and on every text `encrypt` gives the same result with both
ciphers, and so does `decrypt`. -/
theorem key_doubling (L : CLocale) (K : List Char) (c : modAlphaCipher) (T : List Char)
    (hc : new L K = .ok c) :
    (∃ c2, new L (K ++ K) = .ok c2 ∧ c2.key = c.key ++ c.key ∧
      encrypt L c2 T = encrypt L c T ∧ decrypt L c2 T = decrypt L c T) ∧
    encrypt L c T =
      (if T.isEmpty then .error .emptyText
      else if T.any (fun ch => !L.iswalpha ch && ch != ' ') then .error .invalidTextCharacter
      else if (indexSequence L T).isEmpty then .error .textHasNoValidLetters
      else .ok ((List.range (indexSequence L T).length).map fun i =>
        letterAt (((indexSequence L T).getD i 0 + c.key.getD (i % c.key.length) 0) % 33))) ∧
    decrypt L c T =
      (if T.isEmpty then .error .emptyText
      else if T.any (fun ch => !L.iswalpha ch && ch != ' ') then .error .invalidTextCharacter
      else if (indexSequence L T).isEmpty then .error .textHasNoValidLetters
      else .ok ((List.range (indexSequence L T).length).map fun i =>
        letterAt
          (((indexSequence L T).getD i 0 + 33 - c.key.getD (i % c.key.length) 0) % 33))) ∧
    (∀ i : Nat, c.key.getD ((i + c.key.length) % c.key.length) 0
      = c.key.getD (i % c.key.length) 0) ∧
    (∀ i : Nat, (c.key ++ c.key).getD (i % (c.key ++ c.key).length) 0
      = c.key.getD (i % c.key.length) 0) := by
  obtain ⟨hne, hal, hA, hkey, hkne⟩ := new_ok_inv hc
  have hK := key_range_of_new hc
  have hne2 : K ++ K ≠ [] := by
    intro e
    exact hne (List.append_eq_nil.mp e).1
  have hal2 : ∀ ch ∈ K ++ K, L.iswalpha ch = true := by
    intro ch hch
    rcases List.mem_append.mp hch with h | h
    · exact hal ch h
    · exact hal ch h
  have hidx : indexSequence L (K ++ K) = c.key ++ c.key := by
    rw [indexSequence_append, hkey]
  have hne3 : indexSequence L (K ++ K) ≠ [] := by
    rw [hidx]
    intro e
    exact hkne (List.append_eq_nil.mp e).1
  have hnew := new_eq_ok hne2 hal2 hne3
  rw [hidx] at hnew
  have hK2 : ∀ v ∈ c.key ++ c.key, 0 ≤ v ∧ v < 33 := by
    intro v hv
    rcases List.mem_append.mp hv with h | h
    · exact hK v h
    · exact hK v h
  refine ⟨⟨_, hnew, rfl, ?_, ?_⟩, encrypt_tree hA hK T, decrypt_tree hA hK T, ?_,
    getD_append_self c.key⟩
  · rw [encrypt_tree (c := { alphaNum := initAlphaNum, key := c.key ++ c.key }) rfl hK2,
      encrypt_tree hA hK]
    simp only [encryptRule_append_self]
  · rw [decrypt_tree (c := { alphaNum := initAlphaNum, key := c.key ++ c.key }) rfl hK2,
      decrypt_tree hA hK]
    simp only [decryptRule_append_self]
  · intro i
    rw [Nat.add_mod_right]

/-- C19 (witness): the keys "ДОЖДИ" (5 letters) and "ДОЖДИДОЖДИ" on the text "Привет мир"
(9 letters of the alphabet): the letters at the positions 5 to 8 are shifted by the first
four key elements again. -/
theorem key_doubling_witness :
    new ruLocale keyDozhdi = .ok cipherDozhdi ∧
    new ruLocale (keyDozhdi ++ keyDozhdi) = .ok cipherDozhdiTwice ∧
    indexSequence ruLocale textMixed = [16, 17, 9, 2, 5, 19, 13, 9, 17] ∧
    cipherDozhdi.key = [4, 15, 7, 4, 9] ∧
    encrypt ruLocale cipherDozhdi textMixed
      = .ok ['У', 'Я', 'П', 'Ё', 'Н', 'Ц', 'Ы', 'П', 'Ф'] ∧
    encrypt ruLocale cipherDozhdiTwice textMixed
      = .ok ['У', 'Я', 'П', 'Ё', 'Н', 'Ц', 'Ы', 'П', 'Ф'] ∧
    ((∃ c2, new ruLocale (keyDozhdi ++ keyDozhdi) = .ok c2 ∧
      c2.key = cipherDozhdi.key ++ cipherDozhdi.key ∧
      encrypt ruLocale c2 textMixed = encrypt ruLocale cipherDozhdi textMixed ∧
      decrypt ruLocale c2 textMixed = decrypt ruLocale cipherDozhdi textMixed) ∧
    encrypt ruLocale cipherDozhdi textMixed =
      (if textMixed.isEmpty then .error .emptyText
      else if textMixed.any (fun ch => !ruLocale.iswalpha ch && ch != ' ') then
        .error .invalidTextCharacter
      else if (indexSequence ruLocale textMixed).isEmpty then .error .textHasNoValidLetters
      else .ok ((List.range (indexSequence ruLocale textMixed).length).map fun i =>
        letterAt (((indexSequence ruLocale textMixed).getD i 0
          + cipherDozhdi.key.getD (i % cipherDozhdi.key.length) 0) % 33))) ∧
    decrypt ruLocale cipherDozhdi textMixed =
      (if textMixed.isEmpty then .error .emptyText
      else if textMixed.any (fun ch => !ruLocale.iswalpha ch && ch != ' ') then
        .error .invalidTextCharacter
      else if (indexSequence ruLocale textMixed).isEmpty then .error .textHasNoValidLetters
      else .ok ((List.range (indexSequence ruLocale textMixed).length).map fun i =>
        letterAt (((indexSequence ruLocale textMixed).getD i 0 + 33
          - cipherDozhdi.key.getD (i % cipherDozhdi.key.length) 0) % 33))) ∧
    (∀ i : Nat, cipherDozhdi.key.getD ((i + cipherDozhdi.key.length) % cipherDozhdi.key.length) 0
      = cipherDozhdi.key.getD (i % cipherDozhdi.key.length) 0) ∧
    (∀ i : Nat, (cipherDozhdi.key ++ cipherDozhdi.key).getD
        (i % (cipherDozhdi.key ++ cipherDozhdi.key).length) 0
      = cipherDozhdi.key.getD (i % cipherDozhdi.key.length) 0)) :=
  ⟨by decide, by decide, by decide, by decide, by decide, by decide,
    key_doubling ruLocale keyDozhdi cipherDozhdi textMixed (by decide)⟩

/-- C20: `decrypt` mirrors the validation of `encrypt`: for every constructed cipher and
every text `X`, `decrypt(X)` fails with the error kind `e` exactly when `encrypt(X)` fails
with `e`. -/
theorem decrypt_error_iff (L : CLocale) (skey : List Char) (c : modAlphaCipher)
    (X : List Char) (e : cipher_error) (hc : new L skey = .ok c) :
    decrypt L c X = .error e ↔ encrypt L c X = .error e := by
  obtain ⟨_, _, hA, _, _⟩ := new_ok_inv hc
  have hK := key_range_of_new hc
  rw [encrypt_tree hA hK, decrypt_tree hA hK]
  by_cases h1 : X.isEmpty = true
  · simp only [if_pos h1]
  · by_cases h2 : X.any (fun ch => !L.iswalpha ch && ch != ' ') = true
    · simp only [if_neg h1, if_pos h2]
    · by_cases h3 : (indexSequence L X).isEmpty = true
      · simp only [if_neg h1, if_neg h2, if_pos h3]
      · simp only [if_neg h1, if_neg h2, if_neg h3]
        constructor <;> intro h <;> cases h

/-- C20 (witness): with the key "ДОЖДИ" both operations reject "ТЕКСТ895" of
`testErrorCases` with `invalidTextCharacter`. -/
theorem decrypt_error_iff_witness :
    new ruLocale keyDozhdi = .ok cipherDozhdi ∧
    encrypt ruLocale cipherDozhdi ['Т', 'Е', 'К', 'С', 'Т', '8', '9', '5']
      = .error .invalidTextCharacter ∧
    (decrypt ruLocale cipherDozhdi ['Т', 'Е', 'К', 'С', 'Т', '8', '9', '5']
        = .error .invalidTextCharacter ↔
      encrypt ruLocale cipherDozhdi ['Т', 'Е', 'К', 'С', 'Т', '8', '9', '5']
        = .error .invalidTextCharacter) :=
  ⟨by decide, by decide,
    decrypt_error_iff ruLocale keyDozhdi cipherDozhdi ['Т', 'Е', 'К', 'С', 'Т', '8', '9', '5']
      .invalidTextCharacter (by decide)⟩

end modAlphaCipher

/-! ## Texts of letters of the alphabet -/

namespace modAlphaCipher

theorem decryptRule_eq_map (q k : List Int) :
    decryptRule 33 q k
      = ((List.range q.length).map fun i =>
          (q.getD i 0 + 33 - k.getD (i % k.length) 0) % 33).map letterAt := by
  unfold decryptRule
  rw [List.map_map]
  rfl

/-- Enciphering with the rule modulo 33 undoes deciphering with the rule modulo 33. -/
theorem encryptRule_decryptRule {q k : List Int} (hq : ∀ v ∈ q, 0 ≤ v ∧ v < 33)
    (hk : ∀ v ∈ k, 0 ≤ v ∧ v < 33) :
    encryptRule 33
      ((List.range q.length).map fun i => (q.getD i 0 + 33 - k.getD (i % k.length) 0) % 33) k
      = q.map letterAt := by
  rw [← map_range_getD letterAt q]
  unfold encryptRule
  rw [List.length_map, List.length_range]
  apply List.map_congr_left
  intro i hi
  have hi2 : i < q.length := List.mem_range.mp hi
  have h1 := getD_range hq i
  have h2 := getD_range hk (i % k.length)
  congr 1
  rw [List.getD_eq_getElem _ _ (by simpa using hi2)]
  simp only [List.getElem_map, List.getElem_range]
  omega

/-- On a non-empty text given by the indices of its letters, `encrypt` applies its rule to
these indices. -/
theorem encrypt_map_letterAt {L : CLocale} {c : modAlphaCipher}
    (hAl : ∀ ch ∈ numAlpha, L.iswalpha ch = true) (hUp : ∀ ch ∈ numAlpha, L.toupper ch = ch)
    (hA : c.alphaNum = initAlphaNum) (hK : ∀ v ∈ c.key, 0 ≤ v ∧ v < 33)
    {l : List Int} (hl : ∀ v ∈ l, 0 ≤ v ∧ v < 33) (hne : l ≠ []) :
    encrypt L c (l.map letterAt) = .ok (encryptRule 33 l c.key) := by
  have hidx : indexSequence L (l.map letterAt) = l := indexSequence_map_letterAt hUp hl
  have d1 : ¬ (l.map letterAt).isEmpty = true := by
    intro e
    rw [List.isEmpty_iff, List.map_eq_nil_iff] at e
    exact hne e
  have d2 : ¬ (l.map letterAt).any (fun ch => !L.iswalpha ch && ch != ' ') = true := by
    apply not_any_of_valid
    intro ch hch
    obtain ⟨v, hv, rfl⟩ := List.mem_map.mp hch
    exact Or.inl (hAl _ (letterAt_mem (hl v hv)))
  have d3 : ¬ l.isEmpty = true := fun e => hne (List.isEmpty_iff.mp e)
  rw [encrypt_tree hA hK, hidx, if_neg d1, if_neg d2, if_neg d3]

theorem mod33_range (l : List Int) (f : Nat → Int) :
    ∀ v ∈ (List.range l.length).map (fun i => f i % 33), 0 ≤ v ∧ v < 33 := by
  intro v hv
  obtain ⟨j, _, rfl⟩ := List.mem_map.mp hv
  exact ⟨Int.emod_nonneg _ (by decide), Int.emod_lt_of_pos _ (by decide)⟩

/-- C21 (failing input): with the key "Б", `decrypt` accepts the cipher text "А Б", which
holds a space, and the cipher text "АZ", which holds a Latin letter; it drops these
characters and returns "ЯА" and "Я". -/
theorem decrypt_accepts_foreign :
    new ruLocale ['Б'] = .ok cipherB ∧ ' ' ∉ numAlpha ∧ 'Z' ∉ numAlpha ∧
    decrypt ruLocale cipherB ['А', ' ', 'Б'] = .ok ['Я', 'А'] ∧
    decrypt ruLocale cipherB ['А', 'Z'] = .ok ['Я'] := by
  decide

/-- C22: in a locale where the letters of the alphabet are alphabetic and are their own
upper case, for every constructed cipher and every text `T` accepted by `encrypt`, the
normalised text (`T` in upper case without the characters outside the alphabet) is
accepted as well and is encrypted to the same text. -/
theorem encrypt_normalised (L : CLocale) (skey : List Char) (c : modAlphaCipher)
    (T E : List Char) (hAl : ∀ ch ∈ numAlpha, L.iswalpha ch = true)
    (hUp : ∀ ch ∈ numAlpha, L.toupper ch = ch) (hc : new L skey = .ok c)
    (hE : encrypt L c T = .ok E) :
    encrypt L c (stripNonAlphabet (T.map L.toupper)) = .ok E := by
  obtain ⟨_, _, hA, _, _⟩ := new_ok_inv hc
  have hK := key_range_of_new hc
  rw [encrypt_tree hA hK] at hE
  split_ifs at hE with h1 h2 h3
  have hne : indexSequence L T ≠ [] := fun e => h3 (List.isEmpty_iff.mpr e)
  rw [← map_letterAt_indexSequence,
    encrypt_map_letterAt hAl hUp hA hK (indexSequence_range L T) hne]
  exact hE

/-- C22 (witness): "Привет мир" and its normalised text "ПРИВЕТМИР" under the key
"ДОЖДИ". -/
theorem encrypt_normalised_witness :
    (∀ ch ∈ numAlpha, ruLocale.iswalpha ch = true) ∧
    (∀ ch ∈ numAlpha, ruLocale.toupper ch = ch) ∧
    new ruLocale keyDozhdi = .ok cipherDozhdi ∧
    encrypt ruLocale cipherDozhdi textMixed
      = .ok ['У', 'Я', 'П', 'Ё', 'Н', 'Ц', 'Ы', 'П', 'Ф'] ∧
    stripNonAlphabet (textMixed.map ruLocale.toupper) = textPrivetMir ∧
    encrypt ruLocale cipherDozhdi (stripNonAlphabet (textMixed.map ruLocale.toupper))
      = .ok ['У', 'Я', 'П', 'Ё', 'Н', 'Ц', 'Ы', 'П', 'Ф'] :=
  ⟨by decide, by decide, by decide, by decide, by decide,
    encrypt_normalised ruLocale keyDozhdi cipherDozhdi textMixed
      ['У', 'Я', 'П', 'Ё', 'Н', 'Ц', 'Ы', 'П', 'Ф']
      (by decide) (by decide) (by decide) (by decide)⟩

/-- C27: in a locale where the letters of the alphabet are alphabetic and are their own
upper case, for every constructed cipher and every cipher text `X` accepted by `decrypt`,
`encrypt (decrypt X)` succeeds and is `X` in upper case without the characters outside the
alphabet. -/
theorem encrypt_decrypt (L : CLocale) (skey : List Char) (c : modAlphaCipher)
    (X D : List Char) (hAl : ∀ ch ∈ numAlpha, L.iswalpha ch = true)
    (hUp : ∀ ch ∈ numAlpha, L.toupper ch = ch) (hc : new L skey = .ok c)
    (hD : decrypt L c X = .ok D) :
    encrypt L c D = .ok (stripNonAlphabet (X.map L.toupper)) := by
  obtain ⟨_, _, hA, _, _⟩ := new_ok_inv hc
  have hK := key_range_of_new hc
  rw [decrypt_tree hA hK] at hD
  split_ifs at hD with h1 h2 h3
  have hDq : D = decryptRule 33 (indexSequence L X) c.key := (Except.ok.inj hD).symm
  rw [decryptRule_eq_map] at hDq
  have hne : ((List.range (indexSequence L X).length).map fun i =>
      ((indexSequence L X).getD i 0 + 33 - c.key.getD (i % c.key.length) 0) % 33) ≠ [] := by
    intro e
    apply h3
    rw [List.isEmpty_iff]
    have := congrArg List.length e
    simp only [List.length_nil, List.length_map, List.length_range] at this
    exact List.length_eq_zero.mp this
  rw [hDq, encrypt_map_letterAt hAl hUp hA hK
      (mod33_range (indexSequence L X)
        (fun i => (indexSequence L X).getD i 0 + 33 - c.key.getD (i % c.key.length) 0)) hne,
    encryptRule_decryptRule (indexSequence_range L X) hK, map_letterAt_indexSequence]

/-- C27 (witness): the cipher text "уяп ёнцыпф" under the key "ДОЖДИ". -/
theorem encrypt_decrypt_witness :
    (∀ ch ∈ numAlpha, ruLocale.iswalpha ch = true) ∧
    (∀ ch ∈ numAlpha, ruLocale.toupper ch = ch) ∧
    new ruLocale keyDozhdi = .ok cipherDozhdi ∧
    decrypt ruLocale cipherDozhdi ['у', 'я', 'п', ' ', 'ё', 'н', 'ц', 'ы', 'п', 'ф']
      = .ok textPrivetMir ∧
    stripNonAlphabet (['у', 'я', 'п', ' ', 'ё', 'н', 'ц', 'ы', 'п', 'ф'].map ruLocale.toupper)
      = ['У', 'Я', 'П', 'Ё', 'Н', 'Ц', 'Ы', 'П', 'Ф'] ∧
    encrypt ruLocale cipherDozhdi textPrivetMir
      = .ok (stripNonAlphabet
          (['у', 'я', 'п', ' ', 'ё', 'н', 'ц', 'ы', 'п', 'ф'].map ruLocale.toupper)) :=
  ⟨by decide, by decide, by decide, by decide, by decide,
    encrypt_decrypt ruLocale keyDozhdi cipherDozhdi
      ['у', 'я', 'п', ' ', 'ё', 'н', 'ц', 'ы', 'п', 'ф'] textPrivetMir
      (by decide) (by decide) (by decide) (by decide)⟩

end modAlphaCipher

/-! ## The route of `encrypt` and the rearrangements -/

namespace TableCipher

/-- Cells that map to a character removed by a filter can be removed before the map. -/
theorem filter_map_filter {α β : Type} (q : β → Bool) (h : α → β) (P : α → Bool)
    (l : List α) (hP : ∀ x ∈ l, P x = false → q (h x) = false) :
    (l.map h).filter q = ((l.filter P).map h).filter q := by
  induction l with
  | nil => rfl
  | cons a rest ih =>
    have ih2 := ih (fun x hx => hP x (List.mem_cons_of_mem _ hx))
    by_cases hPa : P a = true
    · rw [List.filter_cons_of_pos hPa, List.map_cons, List.map_cons]
      by_cases hq : q (h a) = true
      · rw [List.filter_cons_of_pos hq, List.filter_cons_of_pos hq, ih2]
      · rw [List.filter_cons_of_neg hq, List.filter_cons_of_neg hq, ih2]
    · have hq : ¬ q (h a) = true := by
        have := hP a (List.mem_cons_self _ _) (by simpa using hPa)
        simp [this]
      rw [List.filter_cons_of_neg hPa, List.map_cons, List.filter_cons_of_neg hq, ih2]

theorem filter_range_add (P : Nat → Bool) {M : Nat} (hP : ∀ r, P r = true → r < M)
    (d : Nat) : (List.range (M + d)).filter P = (List.range M).filter P := by
  rw [List.range_add, List.filter_append]
  have : ((List.range d).map fun x => M + x).filter P = [] := by
    rw [List.filter_eq_nil_iff]
    intro a ha hPa
    obtain ⟨b, _, rfl⟩ := List.mem_map.mp ha
    have := hP _ hPa
    omega
  rw [this, List.append_nil]

theorem filter_range_eq (P : Nat → Bool) {M N : Nat} (hM : ∀ r, P r = true → r < M)
    (hN : ∀ r, P r = true → r < N) : (List.range M).filter P = (List.range N).filter P := by
  rw [← filter_range_add P hM N, ← filter_range_add P hN M, Nat.add_comm]

/-- One column of the filled grid, without the blanks, is the characters of the text at the
positions of the column, without the blanks. -/
theorem column_eq (T : List Char) {C : Nat} (hC : 0 < C) (col : Nat) :
    (((List.range (rowCount T.length C)).map fun row => (row, col)).map (gridCell T C)).filter
        (fun ch => decide (ch ≠ ' '))
      = ((columnPositions T.length C col).map fun i => T.getD i ' ').filter
        (fun ch => decide (ch ≠ ' ')) := by
  have hle := le_rowCount_mul (n := T.length) hC
  have hR : ∀ r, decide (col + r * C < T.length) = true → r < rowCount T.length C := by
    intro r hr
    have h1 : col + r * C < T.length := by simpa using hr
    have h2 : r * C < rowCount T.length C * C := by omega
    exact Nat.lt_of_mul_lt_mul_right h2
  have hN : ∀ r, decide (col + r * C < T.length) = true → r < T.length := by
    intro r hr
    have h1 : col + r * C < T.length := by simpa using hr
    have h2 : r * 1 ≤ r * C := Nat.mul_le_mul_left r hC
    omega
  have hfun : ((fun p : Nat × Nat => gridCell T C p) ∘ fun row => (row, col))
      = fun row => T.getD (col + row * C) ' ' := by
    funext row
    simp only [Function.comp, gridCell]
    rw [Nat.add_comm]
  have hcol : columnPositions T.length C col
      = ((List.range T.length).filter fun row => decide (col + row * C < T.length)).map
          fun j => col + j * C := by
    unfold columnPositions
    rw [List.filter_map (fun j => col + j * C) (List.range T.length)]
    rfl
  rw [hcol, List.map_map, List.map_map, hfun,
    filter_map_filter (fun ch => decide (ch ≠ ' ')) (fun row => T.getD (col + row * C) ' ')
      (fun row => decide (col + row * C < T.length)) _
      (fun r _ hr => by
        have h1 : ¬ col + r * C < T.length := by simpa using hr
        have h2 : T.getD (col + r * C) ' ' = ' ' := getD_blank_of_le T (by omega)
        show decide (T.getD (col + r * C) ' ' ≠ ' ') = false
        rw [h2]
        rfl),
    filter_range_eq _ hR hN]
  rfl

theorem encrypt_eq_routeText (T : List Char) {C : Nat} (hC : 0 < C) :
    ((colMajor (rowCount T.length C) C).map (gridCell T C)).filter
        (fun ch => decide (ch ≠ ' '))
      = routeText T C := by
  unfold colMajor routeText
  rw [List.map_flatMap, List.filter_flatMap, List.filter_flatMap]
  apply List.flatMap_congr
  intro col _
  exact column_eq T hC col

theorem cellIndex_cons_of_mem_ne {q p : Nat × Nat} (rest : List (Nat × Nat)) (h : q ≠ p) :
    cellIndex (q :: rest) p = cellIndex rest p + 1 := by
  rw [cellIndex, if_neg h]

/-- In a sequence of distinct cells the cells stand at the positions 0, 1, 2, ... -/
theorem map_cellIndex_of_nodup : ∀ (l : List (Nat × Nat)), l.Nodup →
    l.map (cellIndex l) = List.range l.length
  | [], _ => rfl
  | q :: rest, h => by
    have hq : q ∉ rest := (List.nodup_cons.mp h).1
    have ih := map_cellIndex_of_nodup rest (List.nodup_cons.mp h).2
    rw [List.length_cons, List.range_succ_eq_map, List.map_cons, ← ih, List.map_map]
    congr 1
    · simp [cellIndex]
    · apply List.map_congr_left
      intro p hp
      have hne : q ≠ p := fun e => hq (e ▸ hp)
      rw [cellIndex_cons_of_mem_ne rest hne]
      rfl

/-- What the two loops of `decrypt` return: the cells filled in the order of the write
loop hold the text, and the read loop returns a rearrangement of its non-blank
characters. -/
theorem decrypt_loops_perm (X : List Char) {C : Nat} (hC : 0 < C) :
    List.Perm
      (decryptRead (decryptWrite X (rowCount X.length C) C (lastRow X.length C)
        (Table.blank (rowCount X.length C) C)).1 (rowCount X.length C) C)
      (X.filter fun ch => decide (ch ≠ ' ')) := by
  have hV : (decryptCells (rowCount X.length C) C (lastRow X.length C)).Nodup := by
    unfold decryptCells
    exact (nodup_colMajor _ _).filter _
  have hlen := length_decryptCells (n := X.length) hC
  have hmapV : (decryptCells (rowCount X.length C) C (lastRow X.length C)).map
      (fun p => (decryptWrite X (rowCount X.length C) C (lastRow X.length C)
        (Table.blank (rowCount X.length C) C)).1.get p.1 p.2) = X := by
    have h1 : (decryptCells (rowCount X.length C) C (lastRow X.length C)).map
        (fun p => (decryptWrite X (rowCount X.length C) C (lastRow X.length C)
          (Table.blank (rowCount X.length C) C)).1.get p.1 p.2)
        = ((decryptCells (rowCount X.length C) C (lastRow X.length C)).map
            (cellIndex (decryptCells (rowCount X.length C) C (lastRow X.length C)))).map
            (fun k => X.getD k ' ') := by
      rw [List.map_map]
      apply List.map_congr_left
      intro p hp
      rw [get_decryptWrite, if_pos hp]
      rfl
    rw [h1, map_cellIndex_of_nodup _ hV, hlen, map_getD_range X (le_refl _), Nat.sub_self]
    simp
  rw [decryptRead_eq, readCells]
  have hperm := ((colMajor_perm_rowMajor (rowCount X.length C) C).symm.map
    (fun p => (decryptWrite X (rowCount X.length C) C (lastRow X.length C)
      (Table.blank (rowCount X.length C) C)).1.get p.1 p.2)).filter
    (fun ch => decide (ch ≠ ' '))
  refine hperm.trans ?_
  rw [filter_map_filter (fun ch => decide (ch ≠ ' '))
    (fun p => (decryptWrite X (rowCount X.length C) C (lastRow X.length C)
      (Table.blank (rowCount X.length C) C)).1.get p.1 p.2)
    (fun p => !decide (p.1 = rowCount X.length C - 1 ∧ p.2 ≥ lastRow X.length C))
    (colMajor (rowCount X.length C) C)
    (fun p hp hP => by
      have hnot : p ∉ decryptCells (rowCount X.length C) C (lastRow X.length C) := by
        intro hm
        unfold decryptCells at hm
        have h1 := (List.mem_filter.mp hm).2
        have h2 : (!decide (p.1 = rowCount X.length C - 1 ∧ p.2 ≥ lastRow X.length C))
            = false := hP
        rw [h2] at h1
        cases h1
      have h3 := get_decryptWrite X (rowCount X.length C) C (lastRow X.length C) p
      rw [if_neg hnot] at h3
      show decide ((decryptWrite X (rowCount X.length C) C (lastRow X.length C)
        (Table.blank (rowCount X.length C) C)).1.get p.1 p.2 ≠ ' ') = false
      rw [h3]
      rfl)]
  have hV2 : (colMajor (rowCount X.length C) C).filter
      (fun p => !decide (p.1 = rowCount X.length C - 1 ∧ p.2 ≥ lastRow X.length C))
      = decryptCells (rowCount X.length C) C (lastRow X.length C) := rfl
  rw [hV2, hmapV]

end TableCipher

namespace TableCipher

/-- C23: for every constructed cipher `TableCipher(c)` and every text `T` accepted by
`encrypt`, the result is the concatenation, for `col = c - 1` down to `0`, of the
characters `T[col], T[col + c], T[col + 2c], ...` (the positions below the length, in
increasing order), every space left out. -/
theorem encrypt_route (L : CLocale) (k : Int) (c : TableCipher) (T E : List Char)
    (hc : new k = .ok c) (hE : encrypt L c T = .ok E) :
    E = routeText T k.toNat := by
  obtain ⟨C, hC, _, rfl, rfl⟩ := exists_nat_of_new hc
  obtain ⟨_, _, _, _, hEq⟩ := encrypt_ok_inv hC hE
  rw [hEq, Int.toNat_natCast]
  exact encrypt_eq_routeText T hC

/-- C23 (witness): with 2 columns the text "А БВГ" is read as the column "ВГ" without its
blank, then the column "АБГ", which gives "ВАБГ". -/
theorem encrypt_route_witness :
    new 2 = .ok { numColumns := 2 } ∧
    encrypt ruLocale { numColumns := 2 } ['А', ' ', 'Б', 'В', 'Г'] = .ok ['В', 'А', 'Б', 'Г'] ∧
    columnPositions 5 2 1 = [1, 3] ∧ columnPositions 5 2 0 = [0, 2, 4] ∧
    ['В', 'А', 'Б', 'Г'] = routeText ['А', ' ', 'Б', 'В', 'Г'] (2 : Int).toNat :=
  ⟨by decide, by decide, by decide, by decide,
    encrypt_route ruLocale 2 { numColumns := 2 } ['А', ' ', 'Б', 'В', 'Г'] ['В', 'А', 'Б', 'Г']
      (by decide) (by decide)⟩

/-- C24: for every constructed cipher and every text `T` accepted by `encrypt`, the result
holds no space and its length is the number of characters of `T` other than the space. -/
theorem encrypt_no_space (L : CLocale) (k : Int) (c : TableCipher) (T E : List Char)
    (hc : new k = .ok c) (hE : encrypt L c T = .ok E) :
    ' ' ∉ E ∧ E.length = T.countP (fun ch => decide (ch ≠ ' ')) := by
  obtain ⟨C, hC, _, _, rfl⟩ := exists_nat_of_new hc
  obtain ⟨_, _, _, _, hEq⟩ := encrypt_ok_inv hC hE
  constructor
  · intro hmem
    rw [hEq, List.mem_filter] at hmem
    simp at hmem
  · rw [List.countP_eq_length_filter, hEq]
    exact (encrypt_perm T hC).length_eq

/-- C24 (witness): with 2 columns "А БВГ" (4 characters other than the space) is encrypted
to the 4 letters "ВАБГ". -/
theorem encrypt_no_space_witness :
    new 2 = .ok { numColumns := 2 } ∧
    encrypt ruLocale { numColumns := 2 } ['А', ' ', 'Б', 'В', 'Г'] = .ok ['В', 'А', 'Б', 'Г'] ∧
    (' ' ∉ ['В', 'А', 'Б', 'Г'] ∧
      ['В', 'А', 'Б', 'Г'].length
        = ['А', ' ', 'Б', 'В', 'Г'].countP (fun ch => decide (ch ≠ ' '))) :=
  ⟨by decide, by decide,
    encrypt_no_space ruLocale 2 { numColumns := 2 } ['А', ' ', 'Б', 'В', 'Г']
      ['В', 'А', 'Б', 'Г'] (by decide) (by decide)⟩

/-- C25: for every constructed cipher, the result of `encrypt` on an accepted text `T` is
a permutation of the characters of `T` other than the space, and the result of `decrypt`
on an accepted text `X` is a permutation of the characters of `X` other than the space. -/
theorem rearrangement (L : CLocale) (k : Int) (c : TableCipher) (T E X D : List Char)
    (hc : new k = .ok c) (hE : encrypt L c T = .ok E) (hD : decrypt L c X = .ok D) :
    List.Perm E (T.filter fun ch => decide (ch ≠ ' ')) ∧
    List.Perm D (X.filter fun ch => decide (ch ≠ ' ')) := by
  obtain ⟨C, hC, _, _, rfl⟩ := exists_nat_of_new hc
  obtain ⟨_, _, _, _, hEq⟩ := encrypt_ok_inv hC hE
  constructor
  · rw [hEq]
    exact encrypt_perm T hC
  · rw [decrypt_eq L C hC] at hD
    split_ifs at hD
    rw [← Except.ok.inj hD]
    exact decrypt_loops_perm X hC

/-- C25 (witness): with 2 columns "А БВГ" is encrypted to "ВАБГ" and decrypted to
"БАВГ". -/
theorem rearrangement_witness :
    new 2 = .ok { numColumns := 2 } ∧
    encrypt ruLocale { numColumns := 2 } ['А', ' ', 'Б', 'В', 'Г'] = .ok ['В', 'А', 'Б', 'Г'] ∧
    decrypt ruLocale { numColumns := 2 } ['А', ' ', 'Б', 'В', 'Г'] = .ok ['Б', 'А', 'В', 'Г'] ∧
    (List.Perm ['В', 'А', 'Б', 'Г']
        (['А', ' ', 'Б', 'В', 'Г'].filter fun ch => decide (ch ≠ ' ')) ∧
      List.Perm ['Б', 'А', 'В', 'Г']
        (['А', ' ', 'Б', 'В', 'Г'].filter fun ch => decide (ch ≠ ' '))) :=
  ⟨by decide, by decide, by decide,
    rearrangement ruLocale 2 { numColumns := 2 } ['А', ' ', 'Б', 'В', 'Г'] ['В', 'А', 'Б', 'Г']
      ['А', ' ', 'Б', 'В', 'Г'] ['Б', 'А', 'В', 'Г'] (by decide) (by decide) (by decide)⟩

end TableCipher

/-! ## Every access of the loops is inside the table -/

theorem Table.put?_eq_some {t : Table} {R C : Nat} (h : t.Shape R C) {r c : Nat} (hr : r < R)
    (hc : c < C) (v : Char) : t.put? r c v = some (t.put r c v) := by
  obtain ⟨h1, h2⟩ := h
  have hrl : r < t.length := by omega
  have hrow : (t[r]).length = C := h2 _ (List.getElem_mem _)
  unfold Table.put? Table.put
  rw [List.getElem?_eq_getElem hrl, Option.some_bind, if_pos (by omega),
    List.getD_eq_getElem _ _ hrl]

theorem Table.get?_eq_some {t : Table} {R C : Nat} (h : t.Shape R C) {r c : Nat} (hr : r < R)
    (hc : c < C) : t.get? r c = some (t.get r c) := by
  obtain ⟨h1, h2⟩ := h
  have hrl : r < t.length := by omega
  have hrow : (t[r]).length = C := h2 _ (List.getElem_mem _)
  unfold Table.get? Table.get
  rw [List.getElem?_eq_getElem hrl, Option.some_bind, List.getD_eq_getElem _ _ hrl,
    List.getElem?_eq_getElem (by omega), List.getD_eq_getElem _ _ (by omega)]

namespace TableCipher

theorem foldlM_flatMap_cells {σ : Type} (f : σ → Nat × Nat → Option σ)
    (mk : Nat → Nat → Nat × Nat) (outer inner : List Nat) (init : σ) :
    outer.foldlM (fun st a => inner.foldlM (fun st b => f st (mk a b)) st) init
      = (outer.flatMap fun a => inner.map fun b => mk a b).foldlM f init := by
  induction outer generalizing init with
  | nil => rfl
  | cons a rest ih =>
    rw [List.foldlM_cons, List.flatMap_cons, List.foldlM_append, List.foldlM_map]
    congr 1
    funext st
    exact ih st

theorem foldlM_skip_eq_filter {σ α : Type} (f : σ → α → Option σ) (skip : α → Bool)
    (l : List α) (init : σ) :
    l.foldlM (fun st a => if skip a = true then some st else f st a) init
      = (l.filter fun a => !skip a).foldlM f init := by
  induction l generalizing init with
  | nil => rfl
  | cons a rest ih =>
    by_cases h : skip a = true
    · rw [List.foldlM_cons, if_pos h, List.filter_cons_of_neg (by simp [h])]
      exact ih init
    · rw [List.foldlM_cons, if_neg h, List.filter_cons_of_pos (by simpa using h),
        List.foldlM_cons]
      congr 1
      funext st
      exact ih st

theorem shape_writeCells (text : List Char) (R C : Nat) :
    ∀ (cells : List (Nat × Nat)) (t : Table) (i : Nat), t.Shape R C →
      (writeCells text cells (t, i)).1.Shape R C := by
  intro cells
  induction cells with
  | nil => intro t i hs; exact hs
  | cons q rest ih =>
    intro t i hs
    by_cases hi : i < text.length
    · have hstep : writeCells text (q :: rest) (t, i)
          = writeCells text rest (t.put q.1 q.2 (text.getD i ' '), i + 1) := by
        simp [writeCells, hi]
      rw [hstep]
      exact ih _ _ (Table.shape_put hs _ _ _)
    · have hstep : writeCells text (q :: rest) (t, i) = writeCells text rest (t, i) := by
        simp [writeCells, hi]
      rw [hstep]
      exact ih _ _ hs

/-- The running index after a write pass. -/
theorem index_writeCells (text : List Char) :
    ∀ (cells : List (Nat × Nat)) (t : Table) (i : Nat),
      (writeCells text cells (t, i)).2 = min (i + cells.length) (max i text.length) := by
  intro cells
  induction cells with
  | nil =>
    intro t i
    simp [writeCells]
  | cons q rest ih =>
    intro t i
    by_cases hi : i < text.length
    · have hstep : writeCells text (q :: rest) (t, i)
          = writeCells text rest (t.put q.1 q.2 (text.getD i ' '), i + 1) := by
        simp [writeCells, hi]
      rw [hstep, ih, List.length_cons]
      omega
    · have hstep : writeCells text (q :: rest) (t, i) = writeCells text rest (t, i) := by
        simp [writeCells, hi]
      rw [hstep, ih, List.length_cons]
      omega

/-- A write pass over cells of the table never leaves the table or the text. -/
theorem foldlM_write_eq (text : List Char) (R C : Nat) :
    ∀ (cells : List (Nat × Nat)) (t : Table) (i : Nat), t.Shape R C →
      (∀ p ∈ cells, p.1 < R ∧ p.2 < C) →
      cells.foldlM (fun (st : Table × Nat) p =>
          if st.2 < text.length then
            (text[st.2]?).bind fun ch =>
              (st.1.put? p.1 p.2 ch).bind fun t => some (t, st.2 + 1)
          else some st) (t, i)
        = some (writeCells text cells (t, i)) := by
  intro cells
  induction cells with
  | nil => intro t i _ _; rfl
  | cons q rest ih =>
    intro t i hs hb
    have hqb := hb q (List.mem_cons_self _ _)
    have hb2 : ∀ p ∈ rest, p.1 < R ∧ p.2 < C := fun p hp => hb p (List.mem_cons_of_mem _ hp)
    rw [List.foldlM_cons]
    by_cases hi : i < text.length
    · have hstep : writeCells text (q :: rest) (t, i)
          = writeCells text rest (t.put q.1 q.2 (text.getD i ' '), i + 1) := by
        simp [writeCells, hi]
      rw [hstep, ← ih _ (i + 1) (Table.shape_put hs q.1 q.2 (text.getD i ' ')) hb2]
      simp only [if_pos hi, List.getElem?_eq_getElem hi, Option.some_bind]
      rw [Table.put?_eq_some hs hqb.1 hqb.2, List.getD_eq_getElem _ _ hi]
      rfl
    · have hstep : writeCells text (q :: rest) (t, i) = writeCells text rest (t, i) := by
        simp [writeCells, hi]
      rw [hstep, ← ih t i hs hb2]
      simp only [if_neg hi]
      rfl

/-- A read pass over cells of the table never leaves the table. -/
theorem foldlM_read_eq {t : Table} {R C : Nat} (hs : t.Shape R C) :
    ∀ (cells : List (Nat × Nat)) (acc : List Char), (∀ p ∈ cells, p.1 < R ∧ p.2 < C) →
      cells.foldlM (fun res p =>
          (t.get? p.1 p.2).bind fun ch => some (if ch ≠ ' ' then res ++ [ch] else res)) acc
        = some (acc ++ readCells t cells) := by
  intro cells
  induction cells with
  | nil => intro acc _; simp [readCells]
  | cons q rest ih =>
    intro acc hb
    have hqb := hb q (List.mem_cons_self _ _)
    have hb2 : ∀ p ∈ rest, p.1 < R ∧ p.2 < C := fun p hp => hb p (List.mem_cons_of_mem _ hp)
    rw [List.foldlM_cons, Table.get?_eq_some hs hqb.1 hqb.2]
    simp only [Option.some_bind]
    have hrest := ih (if t.get q.1 q.2 ≠ ' ' then acc ++ [t.get q.1 q.2] else acc) hb2
    refine Eq.trans hrest ?_
    by_cases h : t.get q.1 q.2 = ' '
    · simp [readCells, h]
    · simp [readCells, h]

end TableCipher

namespace TableCipher

theorem encryptWriteChecked_eq (T : List Char) {R C : Nat} {t : Table} (hs : t.Shape R C) :
    encryptWriteChecked T R C t = some (encryptWrite T R C t) := by
  unfold encryptWriteChecked
  rw [foldlM_flatMap_cells
    (fun (st : Table × Nat) p =>
      if st.2 < T.length then
        (T[st.2]?).bind fun ch => (st.1.put? p.1 p.2 ch).bind fun t => some (t, st.2 + 1)
      else some st)
    (fun r c => (r, c)) (List.range R) (List.range C) (t, 0), encryptWrite_eq]
  exact foldlM_write_eq T R C (rowMajor R C) t 0 hs (fun p hp => mem_rowMajor.mp hp)

theorem encryptReadChecked_eq {t : Table} {R C : Nat} (hs : t.Shape R C) :
    encryptReadChecked t R C = some (encryptRead t R C) := by
  unfold encryptReadChecked
  rw [foldlM_flatMap_cells
    (fun (res : List Char) p =>
      (t.get? p.1 p.2).bind fun ch => some (if ch ≠ ' ' then res ++ [ch] else res))
    (fun c r => (r, c)) (List.range C).reverse (List.range R) [], encryptRead_eq]
  exact foldlM_read_eq hs (colMajor R C) [] (fun p hp => mem_colMajor.mp hp)

theorem decryptReadChecked_eq {t : Table} {R C : Nat} (hs : t.Shape R C) :
    decryptReadChecked t R C = some (decryptRead t R C) := by
  unfold decryptReadChecked
  rw [foldlM_flatMap_cells
    (fun (res : List Char) p =>
      (t.get? p.1 p.2).bind fun ch => some (if ch ≠ ' ' then res ++ [ch] else res))
    (fun r c => (r, c)) (List.range R) (List.range C) [], decryptRead_eq]
  exact foldlM_read_eq hs (rowMajor R C) [] (fun p hp => mem_rowMajor.mp hp)

theorem decryptWriteChecked_eq (X : List Char) {R C : Nat} (last : Nat) {t : Table}
    (hs : t.Shape R C) :
    decryptWriteChecked X R C last t = some (decryptWrite X R C last t) := by
  unfold decryptWriteChecked
  have h := foldlM_flatMap_cells
    (fun (st : Table × Nat) p =>
      if (decide (p.1 = R - 1 ∧ p.2 ≥ last)) = true then some st
      else if st.2 < X.length then
        (X[st.2]?).bind fun ch => (st.1.put? p.1 p.2 ch).bind fun t => some (t, st.2 + 1)
      else some st)
    (fun c r => (r, c)) (List.range C).reverse (List.range R) (t, 0)
  rw [foldlM_skip_eq_filter] at h
  simp only [decide_eq_true_eq] at h
  rw [h, decryptWrite_eq]
  exact foldlM_write_eq X R C _ t 0 hs
    (fun p hp => mem_colMajor.mp (List.mem_of_mem_filter hp))

theorem pred_rowCount_mul_add_lastRow {n C : Nat} (hC : 0 < C) (hn : C ≤ n) :
    (rowCount n C - 1) * C + lastRow n C = n := by
  have hdm : C * (n / C) + n % C = n := Nat.div_add_mod n C
  have hcomm : C * (n / C) = n / C * C := Nat.mul_comm _ _
  rcases rowCount_cases (n := n) hC with ⟨h0, hR, hL⟩ | ⟨h0, hR, hL⟩
  · have hq : 1 ≤ n / C := by
      rcases Nat.eq_zero_or_pos (n / C) with hz | hp
      · rw [hz] at hdm
        omega
      · exact hp
    rw [hR, hL, Nat.sub_mul, Nat.one_mul]
    have : C ≤ n / C * C := by
      calc C = 1 * C := (Nat.one_mul C).symm
        _ ≤ n / C * C := Nat.mul_le_mul_right C hq
    omega
  · rw [hR, hL, Nat.add_sub_cancel]
    omega

end TableCipher

namespace TableCipher

/-- C26: for every text of length `n` and every number of columns `c` with `1 <= c <= n`,
the number of rows `numRows = (n + c - 1) / c` satisfies
`(numRows - 1) * c < n <= numRows * c`; the four loops of `encrypt` and `decrypt` run
without an access outside the `numRows x c` table or outside the text (the loops that
fail on such an access return the result of the loops of the methods); the write loop of
`encrypt` ends with `index = n` and has put the character `i` in row `i / c`, column
`i % c`; the write loop of `decrypt` visits `n` distinct non-skipped cells,
`(numRows - 1) * c + lastRowLength = n`, ends with `index = n` and has put the character
`i` in the `i`-th of these cells. -/
theorem grid_safety (T : List Char) (C R last : Nat) (hC : 1 ≤ C) (hn : C ≤ T.length)
    (hR : R = (T.length + C - 1) / C)
    (hl : last = if T.length % C = 0 then C else T.length % C) :
    ((R - 1) * C < T.length ∧ T.length ≤ R * C) ∧
    (encryptWriteChecked T R C (Table.blank R C)
        = some (encryptWrite T R C (Table.blank R C)) ∧
      encryptReadChecked (encryptWrite T R C (Table.blank R C)).1 R C
        = some (encryptRead (encryptWrite T R C (Table.blank R C)).1 R C) ∧
      decryptWriteChecked T R C last (Table.blank R C)
        = some (decryptWrite T R C last (Table.blank R C)) ∧
      decryptReadChecked (decryptWrite T R C last (Table.blank R C)).1 R C
        = some (decryptRead (decryptWrite T R C last (Table.blank R C)).1 R C)) ∧
    ((encryptWrite T R C (Table.blank R C)).2 = T.length ∧
      ∀ i, i < T.length →
        (encryptWrite T R C (Table.blank R C)).1.get (i / C) (i % C) = T.getD i ' ') ∧
    ((decryptCells R C last).length = T.length ∧ (decryptCells R C last).Nodup ∧
      (R - 1) * C + last = T.length ∧
      (decryptWrite T R C last (Table.blank R C)).2 = T.length ∧
      ∀ i, i < T.length → ∃ p, (decryptCells R C last)[i]? = some p ∧
        (decryptWrite T R C last (Table.blank R C)).1.get p.1 p.2 = T.getD i ' ') := by
  have hC0 : 0 < C := hC
  have hR2 : R = rowCount T.length C := hR
  have hl2 : last = lastRow T.length C := hl
  subst hR2
  subst hl2
  have hle := le_rowCount_mul (n := T.length) hC0
  have hlt := rowCount_mul_lt (n := T.length) hC0
  have hsum := pred_rowCount_mul_add_lastRow hC0 hn
  have hVlen := length_decryptCells (n := T.length) hC0
  have hVnd : (decryptCells (rowCount T.length C) C (lastRow T.length C)).Nodup := by
    unfold decryptCells
    exact (nodup_colMajor _ _).filter _
  have hsE : (encryptWrite T (rowCount T.length C) C
      (Table.blank (rowCount T.length C) C)).1.Shape (rowCount T.length C) C := by
    rw [encryptWrite_eq]
    exact shape_writeCells T _ _ _ _ 0 (Table.shape_blank _ _)
  have hsD : (decryptWrite T (rowCount T.length C) C (lastRow T.length C)
      (Table.blank (rowCount T.length C) C)).1.Shape (rowCount T.length C) C := by
    rw [decryptWrite_eq]
    exact shape_writeCells T _ _ _ _ 0 (Table.shape_blank _ _)
  refine ⟨⟨?_, hle⟩, ⟨encryptWriteChecked_eq T (Table.shape_blank _ _),
    encryptReadChecked_eq hsE, decryptWriteChecked_eq T _ (Table.shape_blank _ _),
    decryptReadChecked_eq hsD⟩, ⟨?_, ?_⟩, ⟨hVlen, hVnd, hsum, ?_, ?_⟩⟩
  · rw [Nat.sub_mul, Nat.one_mul]
    omega
  · rw [encryptWrite_eq, index_writeCells, length_rowMajor]
    omega
  · intro i hi
    have hdiv : i / C < rowCount T.length C := by
      apply Nat.div_lt_of_lt_mul
      rw [Nat.mul_comm]
      omega
    have hmod : i % C < C := Nat.mod_lt i hC0
    have h := get_encryptWrite T (rowCount T.length C) C (p := (i / C, i % C)) hdiv hmod
    rw [h, gridCell]
    simp only
    rw [Nat.div_add_mod']
  · have h := index_writeCells T (decryptCells (rowCount T.length C) C (lastRow T.length C))
      (Table.blank (rowCount T.length C) C) 0
    rw [decryptWrite_eq]
    rw [decryptCells] at h hVlen
    rw [h, hVlen]
    omega
  · intro i hi
    have hiV : i < (decryptCells (rowCount T.length C) C (lastRow T.length C)).length := by
      omega
    refine ⟨(decryptCells (rowCount T.length C) C (lastRow T.length C))[i],
      List.getElem?_eq_getElem hiV, ?_⟩
    have hmem : (decryptCells (rowCount T.length C) C (lastRow T.length C))[i]
        ∈ decryptCells (rowCount T.length C) C (lastRow T.length C) := List.getElem_mem _
    have hidx : cellIndex (decryptCells (rowCount T.length C) C (lastRow T.length C))
        ((decryptCells (rowCount T.length C) C (lastRow T.length C))[i]) = i := by
      have h1 := map_cellIndex_of_nodup _ hVnd
      have h2 := congrArg (fun l => l[i]?) h1
      simp only [List.getElem?_map, List.getElem?_eq_getElem hiV, Option.map_some',
        List.getElem?_range hiV] at h2
      exact Option.some.inj h2
    rw [get_decryptWrite, if_pos hmem, hidx]

/-- C26 (witness): the text "АБВГД" in 3 columns: 2 rows, the last of length 2. -/
theorem grid_safety_witness :
    (1 ≤ 3 ∧ 3 ≤ textAbvgd.length ∧ 2 = (textAbvgd.length + 3 - 1) / 3 ∧
      2 = if textAbvgd.length % 3 = 0 then 3 else textAbvgd.length % 3) ∧
    encryptWriteChecked textAbvgd 2 3 (Table.blank 2 3)
      = some ([['А', 'Б', 'В'], ['Г', 'Д', ' ']], 5) ∧
    decryptCells 2 3 2 = [(0, 2), (0, 1), (1, 1), (0, 0), (1, 0)] ∧
    (
    ((2 - 1) * 3 < textAbvgd.length ∧ textAbvgd.length ≤ 2 * 3) ∧
    (encryptWriteChecked textAbvgd 2 3 (Table.blank 2 3)
        = some (encryptWrite textAbvgd 2 3 (Table.blank 2 3)) ∧
      encryptReadChecked (encryptWrite textAbvgd 2 3 (Table.blank 2 3)).1 2 3
        = some (encryptRead (encryptWrite textAbvgd 2 3 (Table.blank 2 3)).1 2 3) ∧
      decryptWriteChecked textAbvgd 2 3 2 (Table.blank 2 3)
        = some (decryptWrite textAbvgd 2 3 2 (Table.blank 2 3)) ∧
      decryptReadChecked (decryptWrite textAbvgd 2 3 2 (Table.blank 2 3)).1 2 3
        = some (decryptRead (decryptWrite textAbvgd 2 3 2 (Table.blank 2 3)).1 2 3)) ∧
    ((encryptWrite textAbvgd 2 3 (Table.blank 2 3)).2 = textAbvgd.length ∧
      ∀ i, i < textAbvgd.length →
        (encryptWrite textAbvgd 2 3 (Table.blank 2 3)).1.get (i / 3) (i % 3) = textAbvgd.getD i ' ') ∧
    ((decryptCells 2 3 2).length = textAbvgd.length ∧ (decryptCells 2 3 2).Nodup ∧
      (2 - 1) * 3 + 2 = textAbvgd.length ∧
      (decryptWrite textAbvgd 2 3 2 (Table.blank 2 3)).2 = textAbvgd.length ∧
      ∀ i, i < textAbvgd.length → ∃ p, (decryptCells 2 3 2)[i]? = some p ∧
        (decryptWrite textAbvgd 2 3 2 (Table.blank 2 3)).1.get p.1 p.2 = textAbvgd.getD i ' ')) :=
  ⟨⟨by decide, by decide, by decide, by decide⟩, by decide, by decide,
    grid_safety textAbvgd 3 2 2 (by decide) (by decide) (by decide) (by decide)⟩

end TableCipher
